import Mathlib

/-!
Verification development for the core of the `veritas` MCTS engine.

The Rust source is shallowly embedded: `u32`/`u64`/`u16` machine integers
become `Nat` with explicit range checks where the source converts or can
overflow, `f64` values become elements of a linear ordered field (with the
irrational helpers `sqrt`/`exp` abstracted as function parameters, so the
theorems hold for the real instantiation `Real.sqrt`/`Real.exp` as a special
case), panicking code paths become `Option`-returning functions (`none` is a
panic), and the evaluator channels become explicit message lists.
-/

namespace Veritas

/-- Player enumeration from `game.rs` (`None` encodes a draw outcome). -/
inductive Player where
  | noPlayer : Player
  | first : Player
  | second : Player
deriving DecidableEq, Repr

/-- `Handle` from `arena.rs`: a `u32` index where `u32::MAX` is the null
sentinel.  Modelled as a `Nat` payload; all handles the code constructs are
below `2^32 - 1`. -/
structure Handle where
  val : Nat
deriving DecidableEq, Repr

/-- The `u32::MAX` sentinel. -/
def handleNullVal : Nat := 2 ^ 32 - 1

/-- `Handle::null()`. -/
def Handle.null : Handle := ⟨handleNullVal⟩

/-- `Handle::is_null()`. -/
def Handle.isNull (h : Handle) : Bool := h.val == handleNullVal

/-- `Handle::from_index` / the plain constructor used by the tree code. -/
def Handle.fromIndex (i : Nat) : Handle := ⟨i⟩

/- ----------------------------------------------------------------- -/
/- Arena (`arena.rs`)                                                 -/
/- ----------------------------------------------------------------- -/

/-- `Arena<T>` from `arena.rs`: dense object storage plus a free list.
The Rust `Vec` pushes and pops its free list at the end; the list head is
used as the stack top here, which realises the same LIFO behaviour. -/
structure Arena (T : Type) where
  objects : List T
  free_list : List Nat

/-- `Arena::new()`. -/
def Arena.new (T : Type) : Arena T := { objects := [], free_list := [] }

/-- `Arena::alloc`.  Popping a free index writes into that slot
(`self.objects[index] = object`, which panics when out of range, hence the
bounds check producing `none`); otherwise the object is pushed and the new
length is converted to `u32` (panicking — `none` — on overflow). -/
def Arena.alloc {T : Type} (a : Arena T) (x : T) : Option (Arena T × Handle) :=
  match a.free_list with
  | i :: rest =>
      if i < a.objects.length then
        some ({ objects := a.objects.set i x, free_list := rest }, ⟨i⟩)
      else
        none
  | [] =>
      if a.objects.length + 1 < 2 ^ 32 then
        some ({ objects := a.objects ++ [x], free_list := [] }, ⟨a.objects.length⟩)
      else
        none

/-- `Arena::dealloc`: pushes the handle's index on the free list. -/
def Arena.dealloc {T : Type} (a : Arena T) (h : Handle) : Arena T :=
  { a with free_list := h.val :: a.free_list }

/-- `Arena::get`, with the out-of-range panic modelled as `none`. -/
def Arena.get {T : Type} (a : Arena T) (h : Handle) : Option T :=
  a.objects.get? h.val

/- ----------------------------------------------------------------- -/
/- Limits (`timemgmt.rs`)                                             -/
/- ----------------------------------------------------------------- -/

/-- `Clock` from `timemgmt.rs`; all durations are `u64` milliseconds. -/
inductive Clock where
  | fixed (millis : Nat) : Clock
  | dynamic (p1_base p1_inc p2_base p2_inc : Nat) : Clock
deriving DecidableEq, Repr

/-- `Limits` from `timemgmt.rs`. -/
structure Limits where
  nodes : Option Nat
  time : Option Clock
deriving DecidableEq, Repr

/-- `Limits::nodes`. -/
def Limits.mkNodes (n : Nat) : Limits := { nodes := some n, time := none }

/-- `Limits::movetime`. -/
def Limits.movetime (millis : Nat) : Limits :=
  { nodes := none, time := some (Clock.fixed millis) }

/-- `Limits::time` (private constructor for the dynamic clock). -/
def Limits.mkTime (our_base our_increment their_base their_increment : Nat) : Limits :=
  { nodes := none
  , time := some (Clock.dynamic our_base our_increment their_base their_increment) }

/-- `Limits::infinite`. -/
def Limits.infinite : Limits := { nodes := none, time := none }

/-- `impl Add for Limits`: right-biased field-wise merge. -/
def Limits.add (a b : Limits) : Limits :=
  { nodes := if b.nodes.isSome then b.nodes else a.nodes
  , time := if b.time.isSome then b.time else a.time }

instance : Add Limits := ⟨Limits.add⟩

/-- `str::parse::<u64>` on a limits token: a decimal number below `2^64`.
(The embedding keeps plain decimal digits; the claims do not depend on the
exact numeral grammar.) -/
def parseU64 (s : String) : Option Nat :=
  match s.toNat? with
  | some n => if n < 2 ^ 64 then some n else none
  | none => none

/-- One iteration of the specifier-collection loop of
`impl FromStr for Limits`: match the leading keyword, consume its argument
words, and return the parsed component together with the remaining words.
Any parse failure, missing argument, wrong follow-up keyword, or unknown
token is an `anyhow` error (`none`). -/
def parseSpec : List String → Option (Limits × List String)
  | [] => none
  | w :: rest =>
    if w = "nodes" then
      match rest with
      | n :: rest' =>
          match parseU64 n with
          | some v => some (Limits.mkNodes v, rest')
          | none => none
      | [] => none
    else if w = "movetime" then
      match rest with
      | n :: rest' =>
          match parseU64 n with
          | some v => some (Limits.movetime v, rest')
          | none => none
      | [] => none
    else if w = "p1time" then
      match rest with
      | t1 :: k2 :: t2 :: k3 :: i1 :: k4 :: i2 :: rest' =>
          if k2 = "p2time" ∧ k3 = "p1inc" ∧ k4 = "p2inc" then
            match parseU64 t1, parseU64 t2, parseU64 i1, parseU64 i2 with
            | some p1t, some p2t, some p1i, some p2i =>
                some (Limits.mkTime p1t p1i p2t p2i, rest')
            | _, _, _, _ => none
          else none
      | _ => none
    else if w = "infinite" then some (Limits.infinite, rest)
    else none

/-- The `while let Some(word) = words.next()` loop of the limits parser:
repeatedly parse one specifier and collect the components.  Every iteration
consumes at least one word, so fuel equal to the word count realises the
unbounded source loop. -/
def parseComponentsGo : Nat → List String → Option (List Limits)
  | _, [] => some []
  | 0, _ :: _ => none
  | fuel + 1, w :: rest =>
    match parseSpec (w :: rest) with
    | none => none
    | some (l, r) => (parseComponentsGo fuel r).map (fun cs => l :: cs)

/-- The component list of a limits word list. -/
def parseComponents (words : List String) : Option (List Limits) :=
  parseComponentsGo words.length words

/-- `impl FromStr for Limits`: collect the components, then fold them with
`+` starting from `Limits::infinite()`. -/
def parseLimits (words : List String) : Option Limits :=
  (parseComponents words).map (fun cs => cs.foldl (fun a b => a + b) Limits.infinite)

/- ----------------------------------------------------------------- -/
/- Edge / Node (`node.rs`)                                            -/
/- ----------------------------------------------------------------- -/

/-- `Terminal` from `node.rs`. -/
inductive TerminalKind where
  | nonTerminal : TerminalKind
  | terminal : TerminalKind
deriving DecidableEq, Repr

/-- `GameResult` from `node.rs`. -/
inductive GameResult where
  | ongoing : GameResult
  | draw : GameResult
  | firstPlayerWin : GameResult
  | secondPlayerWin : GameResult
deriving DecidableEq, Repr

/-- `Edge` from `node.rs`: a move plus its prior probability (`f32` in the
source, an ordered-field element here). -/
structure Edge (μ α : Type) where
  pov_move : μ
  probability : α
deriving DecidableEq, Repr

/-- `Node` from `node.rs`.  `wl` is the accumulated value, `edges` is present
iff the node has been expanded, `child`/`sibling` link the instantiated
children, `index` is the node's index in its parent's edge list (a `u16` in
the source; `Node::new` checks the bound). -/
structure Node (μ α : Type) where
  wl : α
  edges : Option (List (Edge μ α))
  parent : Handle
  child : Handle
  sibling : Handle
  visits : Nat
  index : Nat
  terminal_type : TerminalKind
  upper_bound : GameResult
  lower_bound : GameResult
deriving DecidableEq

/-- The engine's tree storage (`Vec<Node<G>>` in `engine.rs`). -/
abbrev Tree (μ α : Type) := List (Node μ α)

/-- `Node::new`: unexpanded, unvisited node.  The source converts
`edge_index` to `u16` and panics when it does not fit. -/
def Node.new {μ α : Type} [Zero α] (parent : Handle) (edge_index : Nat) :
    Option (Node μ α) :=
  if edge_index < 2 ^ 16 then
    some
      { wl := 0
      , edges := none
      , parent := parent
      , child := Handle.null
      , sibling := Handle.null
      , visits := 0
      , index := edge_index
      , terminal_type := TerminalKind.nonTerminal
      , upper_bound := GameResult.ongoing
      , lower_bound := GameResult.ongoing }
  else none

/-- `Node::winrate`: `wl / visits`.  (At `visits = 0` the source produces a
NaN; the field's total division gives `0` — that branch is never taken by
the code paths proved about, which guard on `visits`.) -/
def Node.winrate {μ α : Type} [DivisionRing α] (n : Node μ α) : α :=
  n.wl / (n.visits : α)

/-- `Node::add_visit`: `wl += value; visits += 1`. -/
def Node.add_visit {μ α : Type} [Add α] (n : Node μ α) (value : α) : Node μ α :=
  { n with wl := n.wl + value, visits := n.visits + 1 }

/-- `Node::is_terminal`. -/
def Node.is_terminal {μ α : Type} (n : Node μ α) : Bool :=
  n.terminal_type = TerminalKind.terminal

/-- Slice indexing `tree[h.index()]` with both the null handle and an
out-of-range index turning the source's panic into `none`. -/
def getNode {μ α : Type} (tree : Tree μ α) (h : Handle) : Option (Node μ α) :=
  if h.isNull then none else tree.get? h.val

/-- Walks a sibling list from a first-child handle, collecting each
instantiated child as a (handle, node) pair in sibling order.  The walk is
fuelled; `tree.length + 1` fuel suffices for any acyclic list. -/
def siblingWalk {μ α : Type} (tree : Tree μ α) : Nat → Handle → Option (List (Handle × Node μ α))
  | 0, _ => none
  | fuel + 1, h =>
    if h.isNull then some []
    else
      match getNode tree h with
      | none => none
      | some n => (siblingWalk tree fuel n.sibling).map (fun l => (h, n) :: l)

/- ----------------------------------------------------------------- -/
/- Engine: backpropagation (`engine.rs`)                              -/
/- ----------------------------------------------------------------- -/

/-- The loop body of `Engine::backpropagate`: credit the current node, stop
when its parent is null, otherwise flip the value and recurse on the
parent.  Fuelled; runs with `tree.length + 1` fuel. -/
def backpropGo {μ α : Type} [One α] [Add α] [Sub α] :
    Nat → Tree μ α → Handle → α → Option (Tree μ α)
  | 0, _, _, _ => none
  | fuel + 1, tree, node, value =>
    match getNode tree node with
    | none => none
    | some n =>
      if n.parent.isNull then some (tree.set node.val (n.add_visit value))
      else backpropGo fuel (tree.set node.val (n.add_visit value)) n.parent (1 - value)

/-- `Engine::backpropagate`. -/
def backpropagate {μ α : Type} [One α] [Add α] [Sub α]
    (tree : Tree μ α) (node : Handle) (value : α) : Option (Tree μ α) :=
  backpropGo (tree.length + 1) tree node value

/-- The chain of node indices visited by `backpropagate`, read off the tree
before any update: the start node, then parents until a null parent. -/
def parentChainGo {μ α : Type} : Nat → Tree μ α → Handle → Option (List Nat)
  | 0, _, _ => none
  | fuel + 1, tree, h =>
    match getNode tree h with
    | none => none
    | some n =>
      if n.parent.isNull then some [h.val]
      else (parentChainGo fuel tree n.parent).map (fun l => h.val :: l)

/-- The parent chain with the canonical fuel. -/
def parentChain {μ α : Type} (tree : Tree μ α) (h : Handle) : Option (List Nat) :=
  parentChainGo (tree.length + 1) tree h

/-- The value credited at depth `d` of the chain: `value` flipped once per
step up. -/
def flipVal {α : Type} [One α] [Sub α] (value : α) (d : Nat) : α :=
  if d % 2 = 0 then value else 1 - value

/- ----------------------------------------------------------------- -/
/- Engine: PUCT selection (`Engine::uct_best`)                        -/
/- ----------------------------------------------------------------- -/

/-- `edges[i].probability()` totalised with `0` out of range (the source
panics there; every proved path checks the range first). -/
def probAt {μ α : Type} [Zero α] (edges : List (Edge μ α)) (i : Nat) : α :=
  match edges.get? i with
  | some e => e.probability
  | none => 0

/-- The linked-list pass of `uct_best`: for each instantiated child, store
`(child handle, q + u)` into the slot of the child's edge index, where
`q = winrate` and `u = c · p / (1 + visits)`.  The source indexes
`edges[node.edge_index()]` and `values[node.edge_index()]`, panicking when
either is out of range; the walk is fuelled. -/
def fillValuesGo {μ α : Type} [LinearOrderedField α] (tree : Tree μ α)
    (edges : List (Edge μ α)) (c : α) :
    Nat → Handle → List (Option (Handle × α)) → Option (List (Option (Handle × α)))
  | 0, _, _ => none
  | fuel + 1, child, values =>
    if child.isNull then some values
    else
      match getNode tree child with
      | none => none
      | some n =>
        match edges.get? n.index with
        | none => none
        | some e =>
          if n.index < values.length then
            let q := n.winrate
            let u := c * e.probability / (1 + (n.visits : α))
            fillValuesGo tree edges c fuel n.sibling
              (values.set n.index (some (child, q + u)))
          else none

/-- Whether a candidate score beats the running best; the initial best is
`f64::NEG_INFINITY`, modelled as `none` (every finite score beats it). -/
def beats {α : Type} [LinearOrder α] (best : Option α) (s : α) : Bool :=
  match best with
  | none => true
  | some b => decide (b < s)

/-- The per-slot candidate score of the `uct_best` selection loop: an
occupied slot (expanded branch) carries its stored score; an empty slot
(dangling branch) scores `c.mul_add(p, fpu) = c·p + fpu`. -/
def entryScore {μ α : Type} [LinearOrderedField α] (c fpu : α) (edges : List (Edge μ α))
    (idx : Nat) : Option (Handle × α) → α
  | some p => p.2
  | none => c * probAt edges idx + fpu

/-- The per-slot candidate child of the selection loop: the stored child
handle for the expanded branch, null for the dangling branch. -/
def entryChild {α : Type} : Option (Handle × α) → Handle
  | some p => p.1
  | none => Handle.null

/-- The selection loop of `uct_best` over the enumerated `values` slots
(already truncated to the edge count): a candidate strictly above the
running best (seeded with `f64::NEG_INFINITY`) replaces it. -/
def uctLoop {μ α : Type} [LinearOrderedField α] (c fpu : α) (edges : List (Edge μ α)) :
    Nat → List (Option (Handle × α)) → Nat × Option α × Handle → Nat × Option α × Handle
  | _, [], acc => acc
  | idx, v :: rest, (bi, bv, bc) =>
    let value := entryScore c fpu edges idx v
    if beats bv value then uctLoop c fpu edges (idx + 1) rest (idx, some value, entryChild v)
    else uctLoop c fpu edges (idx + 1) rest (bi, bv, bc)

/-- The exploration factor of `uct_best`:
`c_puct * f64::from(visits + 1).sqrt()`, with `sqrt` abstracting
`f64::sqrt` (instantiate with `Real.sqrt` for the real semantics). -/
def explorationFactor {α : Type} [LinearOrderedField α] (sqrt : α → α) (c_puct : α)
    (visits : Nat) : α :=
  c_puct * sqrt ((visits + 1 : Nat) : α)

/-- First-play urgency of `uct_best`: `1 - winrate` for a visited node,
`0.5` otherwise. -/
def firstPlayUrgency {μ α : Type} [LinearOrderedField α] (node : Node μ α) : α :=
  if node.visits > 0 then 1 - node.winrate else 1 / 2

/-- `Engine::uct_best`.  `sqrt` abstracts `f64::sqrt` (instantiate with
`Real.sqrt` for the real semantics); `policyDim` is `G::POLICY_DIM`.
Panics (unexpanded node, out-of-range indices) are `none`. -/
def uct_best {μ α : Type} [LinearOrderedField α] (sqrt : α → α) (c_puct : α)
    (policyDim : Nat) (tree : Tree μ α) (node_idx : Nat) : Option (Nat × Handle) :=
  match tree.get? node_idx with
  | none => none
  | some node =>
    let c := explorationFactor sqrt c_puct node.visits
    let fpu : α := firstPlayUrgency node
    match node.edges with
    | none => none
    | some edges =>
      match fillValuesGo tree edges c (tree.length + 1) node.child
          (List.replicate policyDim none) with
      | none => none
      | some values =>
        let r := uctLoop c fpu edges 0 (values.take edges.length) (0, none, Handle.null)
        some (r.1, r.2.2)

/-- The PUCT score of edge `i` of a node, stated the way the specification
describes it: an instantiated child with `k` visits and winrate `q` scores
`q + c·p/(1+k)`; a dangling edge scores `fpu + c·p`.  `kids` is the node's
instantiated-children list in sibling order. -/
def puctScore {μ α : Type} [LinearOrderedField α] (c fpu : α)
    (edges : List (Edge μ α)) (kids : List (Handle × Node μ α)) (i : Nat) : α :=
  match kids.find? (fun p => p.2.index == i) with
  | some p => p.2.winrate + c * probAt edges i / (1 + (p.2.visits : α))
  | none => fpu + c * probAt edges i

/-- The child handle the chosen edge should report: the instantiated child's
handle, or null for a dangling edge. -/
def puctChild {μ α : Type} (kids : List (Handle × Node μ α)) (i : Nat) : Handle :=
  match kids.find? (fun p => p.2.index == i) with
  | some p => p.1
  | none => Handle.null

/- ----------------------------------------------------------------- -/
/- Node::best_move (`node.rs`)                                        -/
/- ----------------------------------------------------------------- -/

/-- The loop of `Node::best_move`: walk the sibling list; a child whose
visit count (strictly) exceeds the running best (`i64`, starting at `-1`)
replaces the best move, which is looked up as
`self.edges().unwrap()[child.edge_index()]` (panicking when the node has no
edge list or the index is out of range). -/
def bestMoveGo {μ α : Type} (tree : Tree μ α) (edgesOpt : Option (List (Edge μ α))) :
    Nat → Handle → Option μ → Int → Option (Option μ)
  | 0, _, _, _ => none
  | fuel + 1, e, bm, bv =>
    if e.isNull then some bm
    else
      match getNode tree e with
      | none => none
      | some n =>
        if bv < (n.visits : Int) then
          match edgesOpt with
          | none => none
          | some edges =>
            match edges.get? n.index with
            | none => none
            | some ed => bestMoveGo tree edgesOpt fuel n.sibling (some ed.pov_move) (n.visits : Int)
        else bestMoveGo tree edgesOpt fuel n.sibling bm bv

/-- `Node::best_move`: run the walk from `first_child` and unwrap the result
(`expect("no moves in node")` — `none` when the walk never found a child). -/
def Node.best_move {μ α : Type} (tree : Tree μ α) (self : Node μ α) : Option μ :=
  match bestMoveGo tree self.edges (tree.length + 1) self.child none (-1) with
  | none => none
  | some bm => bm

/- ----------------------------------------------------------------- -/
/- The rules capability (`game.rs`, trait `GameImpl`)                  -/
/- ----------------------------------------------------------------- -/

/-- The `GameImpl` trait operations the proved code paths consume.
`generate_moves` returns the legal moves in callback order (the sink-based
iteration of the source, with its early-stop flag, is modelled where used);
`move_index` is `Move::index()`, the move's slot in the policy vector. -/
structure GameOps (G μ : Type) where
  to_move : G → Player
  outcome : G → Option Player
  make_move : G → μ → G
  generate_moves : G → List μ
  move_index : μ → Nat

/- ----------------------------------------------------------------- -/
/- Node::expand (`node.rs`)                                           -/
/- ----------------------------------------------------------------- -/

/-- The move-collection loop of `Node::expand`, reading each legal move's
raw logit at `policy[m.index()]` (an out-of-range read panics — `none`). -/
def expandLogitsGo {μ α : Type} (policy : List α) (mi : μ → Nat) :
    List μ → Option (List (μ × α))
  | [] => some []
  | m :: rest =>
    match policy.get? (mi m) with
    | none => none
    | some l => (expandLogitsGo policy mi rest).map (fun t => (m, l) :: t)

/-- First pass of `Node::expand`: the legal moves paired with their raw
logits. -/
def expandLogits {G μ α : Type} (g : GameOps G μ) (pos : G) (policy : List α) :
    Option (List (μ × α)) :=
  expandLogitsGo policy g.move_index (g.generate_moves pos)

/-- The running-maximum logit, seeded with the source's `-1000.0`. -/
def maxLogit {α : Type} [LinearOrderedField α] (ls : List (μ' × α)) : α :=
  ls.foldl (fun acc p => if acc < p.2 then p.2 else acc) (-1000)

/-- `Node::expand`: softmax the logits with max-subtraction, assert each
probability lies in `[0,1]`, store the edge list, and mark the node terminal
(collapsing both bounds) when the position has an outcome.  `exp` abstracts
`f64::exp` (instantiate with `Real.exp` for the real semantics).  A zero
normaliser with a nonempty move list makes the f64 assertion fail, hence
`none`. -/
def Node.expand {G μ α : Type} [LinearOrderedField α] (g : GameOps G μ) (exp : α → α)
    (pos : G) (policy : List α) (self : Node μ α) : Option (Node μ α) :=
  match expandLogits g pos policy with
  | none => none
  | some logits =>
    let m := maxLogit logits
    let exps := logits.map (fun p => (p.1, exp (p.2 - m)))
    let total := (exps.map (fun p => p.2)).sum
    if !exps.isEmpty && decide (total = 0) then none
    else
      let es := exps.map (fun p => { pov_move := p.1, probability := p.2 / total : Edge μ α })
      if es.all (fun e => decide (0 ≤ e.probability) && decide (e.probability ≤ 1)) then
        let base := { self with edges := some es }
        some
          (match g.outcome pos with
          | none => base
          | some Player.noPlayer =>
            { base with
                terminal_type := TerminalKind.terminal,
                upper_bound := GameResult.draw,
                lower_bound := GameResult.draw }
          | some Player.first =>
            { base with
                terminal_type := TerminalKind.terminal,
                upper_bound := GameResult.firstPlayerWin,
                lower_bound := GameResult.firstPlayerWin }
          | some Player.second =>
            { base with
                terminal_type := TerminalKind.terminal,
                upper_bound := GameResult.secondPlayerWin,
                lower_bound := GameResult.secondPlayerWin })
      else none

/- ----------------------------------------------------------------- -/
/- Engine::search initialisation (`engine.rs`, the `tree.is_empty()`  -/
/- block)                                                             -/
/- ----------------------------------------------------------------- -/

/-- The empty-tree initialisation of `Engine::search`: push
`Node::new(Handle::null(), 0)`, submit the root position, and expand the
root node with the policy received from the evaluator (the reply is a
function input here; the value half of the reply is discarded by the
source).  On a non-empty tree nothing happens. -/
def searchInit {G μ α : Type} [LinearOrderedField α] (g : GameOps G μ) (exp : α → α)
    (root : G) (policy : List α) (tree : Tree μ α) : Option (Tree μ α) :=
  if tree.isEmpty then
    match (Node.new Handle.null 0 : Option (Node μ α)) with
    | none => none
    | some n =>
      match n.expand g exp root policy with
      | none => none
      | some n' => some [n']
  else some tree

/- ----------------------------------------------------------------- -/
/- Batched evaluator (`batching.rs`)                                  -/
/- ----------------------------------------------------------------- -/

/-- `EXECUTOR_BATCH_SIZE`. -/
def EXECUTOR_BATCH_SIZE : Nat := 1024

/-- One evaluator reply: a policy row and a value scalar. -/
abbrev Reply (α : Type) := List α × α

/-- The `Executor` state.  `internal` is the optional CUDA executor
(presence only); `inWaiting` is the pulled `(pipe index, board)` queue;
`replies` models each client pipe's reply channel as the list of messages
sent so far, in send order. -/
structure ExecutorState (G α : Type) where
  internal : Option Unit
  inWaiting : List (Nat × G)
  batchSize : Nat
  replies : List (List (Reply α))

/-- `Executor::new`: the batch capacity is
`EXECUTOR_BATCH_SIZE.min(num_pipes)`, one channel pair per pipe, and the
executor is constructed exactly when a CUDA device was supplied. -/
def ExecutorState.new (G α : Type) (hasDevice : Bool) (num_pipes : Nat) :
    ExecutorState G α :=
  { internal := if hasDevice then some () else none
  , inWaiting := []
  , batchSize := EXECUTOR_BATCH_SIZE.min num_pipes
  , replies := List.replicate num_pipes [] }

/-- `self.eval_pipes[pipe].sender.send(r)`: append a reply to one pipe's
channel (an out-of-range pipe index panics — `none`). -/
def sendReply {α : Type} (replies : List (List (Reply α))) (pipe : Nat) (r : Reply α) :
    Option (List (List (Reply α))) :=
  match replies.get? pipe with
  | none => none
  | some l => some (replies.set pipe (l ++ [r]))

/-- The fan-out loop of `tick`: send each batch slot's reply to its
originating pipe, in slot order. -/
def sendLoop {α : Type} (replies : List (List (Reply α))) :
    List (Nat × Reply α) → Option (List (List (Reply α)))
  | [] => some replies
  | (pipe, r) :: rest =>
    match sendReply replies pipe r with
    | none => none
    | some replies' => sendLoop replies' rest

/-- Read the network outputs for slots `0..B-1` of the batch and pair each
with its originating pipe (reading a missing tensor row panics — `none`). -/
def gatherOuts {G α : Type} (outs : List (Reply α)) :
    List (Nat × G) → Nat → Option (List (Nat × Reply α))
  | [], _ => some []
  | (pipe, _) :: rest, i =>
    match outs.get? i with
    | none => none
    | some o => (gatherOuts outs rest (i + 1)).map (fun l => (pipe, o) :: l)

/-- `Executor::tick`.  Drains the first `batch_size` waiting entries
(`drain(..self.batch_size)` panics when fewer are waiting), unwraps the CUDA
executor (`expect("no CUDA executor exists.")` — there is no CPU fallback),
evaluates the batch through the abstract network `net` (which stands for the
tensor build plus `CudaExecutor::evaluate` plus the policy/value slicing),
and sends slot `i`'s reply to the pipe that submitted slot `i`. -/
def ExecutorState.tick {G α : Type} (net : List G → List (Reply α))
    (ex : ExecutorState G α) : Option (ExecutorState G α) :=
  if ex.inWaiting.length < ex.batchSize then none
  else
    match ex.internal with
    | none => none
    | some _ =>
      let batch := ex.inWaiting.take ex.batchSize
      let outs := net (batch.map (fun p => p.2))
      match gatherOuts outs batch 0 with
      | none => none
      | some pairs =>
        match sendLoop ex.replies pairs with
        | none => none
        | some replies' =>
          some { ex with inWaiting := ex.inWaiting.drop ex.batchSize, replies := replies' }

/- ----------------------------------------------------------------- -/
/- Data generation writer (`datagen.rs`)                              -/
/- ----------------------------------------------------------------- -/

/-- One finished self-play game as shipped to the writer. -/
structure GameRecord (G μ : Type) where
  root : G
  move_list : List (μ × List Nat)
  outcome : Option Player

/-- The per-ply value target of `game_record_writer_thread`: `0.5` on a
draw, else `1.0` when the recorded winner is the side to move at the ply and
`0.0` otherwise; a missing outcome is `unreachable!()`. -/
def valueTarget {α : Type} [LinearOrderedField α] (outcome : Option Player)
    (to_move : Player) : Option α :=
  match outcome with
  | some Player.noPlayer => some (1 / 2)
  | some p => some (if p = to_move then 1 else 0)
  | none => none

/-- The writer's replay loop, restricted to the value-target column: walk
the recorded moves from the game's root, emit the value target at each ply,
and advance the board by the recorded move. -/
def valueTargetsGo {G μ α : Type} [LinearOrderedField α] (g : GameOps G μ)
    (outcome : Option Player) : G → List (μ × List Nat) → Option (List α)
  | _, [] => some []
  | board, (mv, _) :: rest =>
    match valueTarget outcome (g.to_move board) with
    | none => none
    | some v => (valueTargetsGo g outcome (g.make_move board mv) rest).map (fun l => v :: l)

/-- The value-target rows the writer emits for one game. -/
def gameValueTargets {G μ α : Type} [LinearOrderedField α] (g : GameOps G μ)
    (rec : GameRecord G μ) : Option (List α) :=
  valueTargetsGo g rec.outcome rec.root rec.move_list

/-- The board at ply `d` of a game record: the root with the first `d`
recorded moves applied. -/
def boardAtPly {G μ : Type} (g : GameOps G μ) (rec : GameRecord G μ) (d : Nat) : G :=
  (rec.move_list.take d).foldl (fun b p => g.make_move b p.1) rec.root

/- ----------------------------------------------------------------- -/
/- UGI front end (`ugi.rs`)                                           -/
/- ----------------------------------------------------------------- -/

/-- The engine state the `play` handler touches: the root position and the
search tree (`set_position` stores the new root and clears the tree). -/
structure EngineState (G μ α : Type) where
  root : G
  tree : Tree μ α

/-- `Engine::set_position`. -/
def EngineState.set_position {G μ α : Type} (_e : EngineState G μ α) (root : G) :
    EngineState G μ α :=
  { root := root, tree := [] }

/-- `ControlFlow<()>` as used by the command handlers. -/
inductive CtlFlow where
  | brk : CtlFlow
  | cont : CtlFlow
deriving DecidableEq, Repr

/-- The legality scan of `make_move_on_engine`: the `generate_moves` sink
sets `move_legal` on a match and returns it as the early-stop flag. -/
def checkLegalGo {μ : Type} [DecidableEq μ] (mv : μ) : List μ → Bool
  | [] => false
  | m :: rest => if m = mv then true else checkLegalGo mv rest

/-- `make_move_on_engine` from `ugi.rs`, with the move text already
stripped of the `play ` prefix and `parse_move` abstracted: a move that
fails to parse or is not generated for the current root reports an error and
breaks without touching the engine; otherwise the move is played and
`set_position` installs the new root (clearing the tree). -/
def make_move_on_engine {G μ α : Type} [DecidableEq μ] (g : GameOps G μ)
    (parseMove : String → Option μ) (moveText : String) (e : EngineState G μ α) :
    CtlFlow × EngineState G μ α :=
  match parseMove moveText with
  | none => (CtlFlow.brk, e)
  | some mv =>
    if checkLegalGo mv (g.generate_moves e.root) then
      (CtlFlow.cont, e.set_position (g.make_move e.root mv))
    else (CtlFlow.brk, e)

/- ----------------------------------------------------------------- -/
/- A tiny concrete rules instance, used to exercise the theorems at   -/
/- closed inputs                                                      -/
/-- Concrete witness data for the PUCT-selection theorem: a one-node tree
whose root is unexpanded downward (no instantiated children) with two edges
of priors 1 and 3. -/
def uctWitEdges : List (Edge Nat Rat) :=
  [{ pov_move := 0, probability := 1 }, { pov_move := 1, probability := 3 }]

/-- The witness root: unvisited, expanded with `uctWitEdges`, no children. -/
def uctWitNode : Node Nat Rat :=
  { wl := 0
  , edges := some uctWitEdges
  , parent := Handle.null
  , child := Handle.null
  , sibling := Handle.null
  , visits := 0
  , index := 0
  , terminal_type := TerminalKind.nonTerminal
  , upper_bound := GameResult.ongoing
  , lower_bound := GameResult.ongoing }

/-- The witness tree holding only the root. -/
def uctWitTree : Tree Nat Rat := [uctWitNode]

/- ----------------------------------------------------------------- -/

/-- A one-move toy game over `Nat` states and `Nat` moves, used only to
instantiate the generic theorems at concrete inputs. -/
def toyGame : GameOps Nat Nat :=
  { to_move := fun b => if b % 2 = 0 then Player.first else Player.second
  , outcome := fun _ => none
  , make_move := fun b m => b + m + 1
  , generate_moves := fun _ => [0]
  , move_index := fun m => m }

/-- The reply batch one pipe receives from one `tick`: the outputs of the
batch slots that pipe submitted, in slot order. -/
def pipeBatchReplies {α : Type} (pipe : Nat) (pairs : List (Nat × Reply α)) :
    List (Reply α) :=
  (pairs.filter (fun q => q.1 == pipe)).map (fun q => q.2)

/- ================================================================= -/
/- Theorems                                                           -/
/- ================================================================= -/

/-- C9: deallocating a live handle and then allocating returns that same
handle (the most recently freed slot is reused), the slot then holds the
new object, and no new slot is appended. -/
theorem arena_dealloc_alloc_reuses {T : Type} (a : Arena T) (h : Handle) (x : T)
    (hlt : h.val < a.objects.length) :
    ∃ a' : Arena T, (a.dealloc h).alloc x = some (a', h) ∧ a'.get h = some x ∧
      a'.objects.length = a.objects.length ∧ a'.free_list = a.free_list := by
  obtain ⟨v⟩ := h
  refine ⟨{ objects := a.objects.set v x, free_list := a.free_list }, ?_, ?_, ?_, rfl⟩
  · simp [Arena.dealloc, Arena.alloc, hlt]
  · simpa [Arena.get] using List.get?_set_eq_of_lt x hlt
  · simp

/-- C9 witness: a concrete arena where slot 1 is freed and then reused. -/
theorem arena_dealloc_alloc_reuses_witness :
    ∃ a' : Arena Nat,
      ((Arena.mk [10, 20, 30] []).dealloc ⟨1⟩).alloc 99 = some (a', ⟨1⟩) ∧
      a'.get ⟨1⟩ = some 99 ∧ a'.objects.length = 3 ∧ a'.free_list = [] :=
  arena_dealloc_alloc_reuses (Arena.mk [10, 20, 30] []) ⟨1⟩ 99 (by decide)

/-- The legality sweep of `make_move_on_engine` finds the move iff it is
among the generated legal moves. -/
theorem checkLegalGo_eq_true_iff {μ : Type} [DecidableEq μ] (mv : μ) (l : List μ) :
    checkLegalGo mv l = true ↔ mv ∈ l := by
  induction l with
  | nil => simp [checkLegalGo]
  | cons m rest ih =>
    by_cases hm : m = mv
    · subst hm; simp [checkLegalGo]
    · simp [checkLegalGo, hm, ih, Ne.symm hm]

/-- C10: a `play` command whose move text fails to parse, or parses to a
move not produced by `generate_moves` on the current root, breaks and
leaves the engine state (root position and search tree) unchanged. -/
theorem make_move_on_engine_rejects {G μ α : Type} [DecidableEq μ] (g : GameOps G μ)
    (parseMove : String → Option μ) (moveText : String) (e : EngineState G μ α)
    (hbad : parseMove moveText = none ∨
      ∃ mv, parseMove moveText = some mv ∧ mv ∉ g.generate_moves e.root) :
    make_move_on_engine g parseMove moveText e = (CtlFlow.brk, e) := by
  rcases hbad with hnone | ⟨mv, hmv, hnotin⟩
  · simp [make_move_on_engine, hnone]
  · have hlegal : checkLegalGo mv (g.generate_moves e.root) = false := by
      rcases Bool.eq_false_or_eq_true (checkLegalGo mv (g.generate_moves e.root)) with ht | hf
      · exact absurd ((checkLegalGo_eq_true_iff mv _).1 ht) hnotin
      · exact hf
    simp [make_move_on_engine, hmv, hlegal]

/-- C10 witness: the toy game rejects an unparseable move and an illegal
move, leaving the engine untouched. -/
theorem make_move_on_engine_rejects_witness :
    make_move_on_engine (α := Rat) toyGame (fun _ => some 7) "" (EngineState.mk 0 []) =
      (CtlFlow.brk, EngineState.mk 0 []) :=
  make_move_on_engine_rejects toyGame (fun _ => some 7) "" (EngineState.mk 0 [])
    (Or.inr ⟨7, rfl, by decide⟩)

/-- C4 counterexample: with no accelerator configured (`internal = none`)
and one position pulled, `tick` does not evaluate anything and sends no
reply — it hits `expect("no CUDA executor exists.")`, modelled as `none` —
contradicting the claim that every pulled position still receives one
reply through a CPU backend. -/
theorem tick_no_accelerator_counterexample :
    ExecutorState.tick (fun bs => bs.map (fun _ => ([1], 1)))
      (ExecutorState.mk (G := Nat) (α := Rat) none [(0, 0)] 1 [[]]) = none := rfl

/-- C4 amended: when no accelerator is configured, `tick` never evaluates
the batch and never replies: it fails on the missing executor for every
network and every executor state. -/
theorem tick_no_accelerator_fails {G α : Type} (net : List G → List (Reply α))
    (ex : ExecutorState G α) (hno : ex.internal = none) :
    ExecutorState.tick net ex = none := by
  unfold ExecutorState.tick
  rcases Nat.lt_or_ge ex.inWaiting.length ex.batchSize with hlt | hge
  · simp [hlt]
  · simp [Nat.not_lt.2 hge, hno]

/-- C4 witness: the amended theorem applied at a concrete CPU-only
executor state. -/
theorem tick_no_accelerator_fails_witness :
    ExecutorState.tick (fun bs => bs.map (fun _ => ([1], 1)))
      (ExecutorState.mk (G := Nat) (α := Rat) none [(0, 0), (1, 5)] 1 [[], []]) = none :=
  tick_no_accelerator_fails (fun bs => bs.map (fun _ => ([1], 1)))
    (ExecutorState.mk none [(0, 0), (1, 5)] 1 [[], []]) rfl

/-- With a recorded winner present, the writer's per-ply value target is
`1/2` on a draw, `1` when the winner is the side to move, `0` otherwise. -/
theorem valueTarget_eq {α : Type} [LinearOrderedField α] (w : Player) (tm : Player) :
    valueTarget (α := α) (some w) tm =
      some (if w = Player.noPlayer then 1 / 2 else if w = tm then 1 else 0) := by
  cases w <;> simp [valueTarget]

/-- The writer's replay loop, characterised ply-by-ply: the value target of
ply `d` is computed from the side to move on the board obtained by playing
the first `d` recorded moves. -/
theorem valueTargetsGo_spec {G μ α : Type} [LinearOrderedField α] (g : GameOps G μ)
    (w : Player) (ml : List (μ × List Nat)) :
    ∀ board : G, ∃ vs : List α,
      valueTargetsGo g (some w) board ml = some vs ∧
      vs.length = ml.length ∧
      ∀ d, d < ml.length →
        vs.get? d = some
          (if w = Player.noPlayer then 1 / 2
           else if w = g.to_move ((ml.take d).foldl (fun b p => g.make_move b p.1) board)
           then 1 else 0) := by
  induction ml with
  | nil => intro board; exact ⟨[], rfl, rfl, fun d hd => absurd hd (Nat.not_lt_zero d)⟩
  | cons hd tl ih =>
    intro board
    obtain ⟨vs', hvs', hlen', hget'⟩ := ih (g.make_move board hd.1)
    refine ⟨(if w = Player.noPlayer then 1 / 2
              else if w = g.to_move board then 1 else 0) :: vs', ?_, ?_, ?_⟩
    · simp only [valueTargetsGo, valueTarget_eq, hvs', Option.map_some']
    · simpa using hlen'
    · intro d hdlt
      cases d with
      | zero => simp
      | succ d' =>
        have hd' : d' < tl.length := Nat.lt_of_succ_lt_succ hdlt
        simpa [List.take_succ_cons] using hget' d' hd'

/-- C8: for every recorded ply of a finished game with winner `w`, the
writer emits a value-target row equal to `1` when the side to move at that
ply is `w`, `0` when `w` is the other player, and `1/2` on a draw. -/
theorem game_value_targets_spec {G μ α : Type} [LinearOrderedField α] (g : GameOps G μ)
    (rec : GameRecord G μ) (w : Player) (hw : rec.outcome = some w) :
    ∃ vs : List α,
      gameValueTargets g rec = some vs ∧
      vs.length = rec.move_list.length ∧
      ∀ d, d < rec.move_list.length →
        vs.get? d = some
          (if w = Player.noPlayer then 1 / 2
           else if w = g.to_move (boardAtPly g rec d) then 1 else 0) := by
  obtain ⟨vs, hvs, hlen, hget⟩ := valueTargetsGo_spec (α := α) g w rec.move_list rec.root
  exact ⟨vs, by simpa [gameValueTargets, hw] using hvs, hlen, hget⟩

/-- C8 witness: a two-ply toy game won by the first player; ply 0 has the
first player to move (target `1`), ply 1 the second (target `0`). -/
theorem game_value_targets_spec_witness :
    ∃ vs : List Rat,
      gameValueTargets toyGame (GameRecord.mk 0 [(0, []), (0, [])] (some Player.first)) = some vs ∧
      vs.length = 2 ∧
      ∀ d, d < 2 →
        vs.get? d = some
          (if Player.first = Player.noPlayer then 1 / 2
           else if Player.first = toyGame.to_move
              (boardAtPly toyGame (GameRecord.mk 0 [(0, []), (0, [])] (some Player.first)) d)
           then 1 else 0) :=
  game_value_targets_spec toyGame (GameRecord.mk 0 [(0, []), (0, [])] (some Player.first))
    Player.first rfl

/-- `parseSpec` on a successful word list: the remainder is strictly
shorter, and appending further words leaves the parsed component and
shifts the remainder. -/
theorem parseSpec_consume_append (ws : List String) (l : Limits) (r : List String)
    (h : parseSpec ws = some (l, r)) :
    r.length < ws.length ∧ ∀ ws2, parseSpec (ws ++ ws2) = some (l, r ++ ws2) := by
  cases ws with
  | nil => exact Option.noConfusion h
  | cons w rest =>
    simp only [parseSpec] at h
    by_cases h1 : w = "nodes"
    · subst h1
      rw [if_pos rfl] at h
      cases rest with
      | nil => exact Option.noConfusion h
      | cons n rest' =>
        cases hp : parseU64 n with
        | none => exact absurd h (by simp [hp])
        | some v =>
          simp only [hp, Option.some.injEq, Prod.mk.injEq] at h
          obtain ⟨rfl, rfl⟩ := h
          constructor
          · simp only [List.length_cons]
            omega
          · intro ws2
            simp [parseSpec, hp, List.cons_append]
    · rw [if_neg h1] at h
      by_cases h2 : w = "movetime"
      · subst h2
        rw [if_pos rfl] at h
        cases rest with
        | nil => exact Option.noConfusion h
        | cons n rest' =>
          cases hp : parseU64 n with
          | none => exact absurd h (by simp [hp])
          | some v =>
            simp only [hp, Option.some.injEq, Prod.mk.injEq] at h
            obtain ⟨rfl, rfl⟩ := h
            constructor
            · simp only [List.length_cons]
              omega
            · intro ws2
              simp [parseSpec, hp, List.cons_append]
      · rw [if_neg h2] at h
        by_cases h3 : w = "p1time"
        · subst h3
          rw [if_pos rfl] at h
          rcases rest with _ | ⟨t1, _ | ⟨k2, _ | ⟨t2, _ | ⟨k3, _ | ⟨i1, _ | ⟨k4, _ | ⟨i2, rest'⟩⟩⟩⟩⟩⟩⟩
          · exact Option.noConfusion h
          · exact Option.noConfusion h
          · exact Option.noConfusion h
          · exact Option.noConfusion h
          · exact Option.noConfusion h
          · exact Option.noConfusion h
          · exact Option.noConfusion h
          · simp only [] at h
            by_cases hk : k2 = "p2time" ∧ k3 = "p1inc" ∧ k4 = "p2inc"
            · rw [if_pos hk] at h
              cases hp1 : parseU64 t1 with
              | none => exact absurd h (by simp [hp1])
              | some p1t =>
                cases hp2 : parseU64 t2 with
                | none => exact absurd h (by simp [hp1, hp2])
                | some p2t =>
                  cases hp3 : parseU64 i1 with
                  | none => exact absurd h (by simp [hp1, hp2, hp3])
                  | some p1i =>
                    cases hp4 : parseU64 i2 with
                    | none => exact absurd h (by simp [hp1, hp2, hp3, hp4])
                    | some p2i =>
                      simp only [hp1, hp2, hp3, hp4, Option.some.injEq, Prod.mk.injEq] at h
                      obtain ⟨rfl, rfl⟩ := h
                      constructor
                      · simp only [List.length_cons]
                        omega
                      · intro ws2
                        simp [parseSpec, hp1, hp2, hp3, hp4, List.cons_append,
                          hk.1, hk.2.1, hk.2.2]
            · rw [if_neg hk] at h
              exact Option.noConfusion h
        · rw [if_neg h3] at h
          by_cases h4 : w = "infinite"
          · subst h4
            rw [if_pos rfl] at h
            simp only [Option.some.injEq, Prod.mk.injEq] at h
            obtain ⟨rfl, rfl⟩ := h
            constructor
            · simp
            · intro ws2
              simp [parseSpec, List.cons_append]
          · rw [if_neg h4] at h
            exact Option.noConfusion h

/-- `parseComponentsGo` ignores any fuel at least the word count. -/
theorem parseComponentsGo_fuel (fuel : Nat) :
    ∀ ws : List String, ws.length ≤ fuel →
      parseComponentsGo fuel ws = parseComponentsGo ws.length ws := by
  induction fuel using Nat.strong_induction_on with
  | _ fuel ih =>
    intro ws hle
    cases ws with
    | nil => cases fuel <;> rfl
    | cons w rest =>
      cases fuel with
      | zero => exact absurd hle (by simp)
      | succ fuel' =>
        cases hs : parseSpec (w :: rest) with
        | none => simp only [List.length_cons, parseComponentsGo, hs]
        | some p =>
          obtain ⟨l, r⟩ := p
          have hlt : r.length < (w :: rest).length := (parseSpec_consume_append _ _ _ hs).1
          simp only [List.length_cons] at hlt hle
          have hr1 : r.length ≤ fuel' := by omega
          have hr2 : r.length ≤ rest.length := by omega
          simp only [List.length_cons, parseComponentsGo, hs]
          rw [ih fuel' (Nat.lt_succ_self _) r hr1,
            ih rest.length (by omega) r hr2]

/-- A successful parse of a word list composes with any further words: the
parse of the concatenation proceeds through the same components. -/
theorem parseComponentsGo_append (fuel : Nat) :
    ∀ ws1 : List String, ws1.length ≤ fuel →
    ∀ cs1, parseComponentsGo fuel ws1 = some cs1 →
    ∀ ws2, parseComponents (ws1 ++ ws2) =
      (parseComponents ws2).map (fun cs2 => cs1 ++ cs2) := by
  induction fuel with
  | zero =>
    intro ws1 hle cs1 h ws2
    cases ws1 with
    | nil =>
      obtain rfl : cs1 = [] := (Option.some.inj h).symm
      simp [parseComponents]
    | cons w rest => exact absurd hle (by simp)
  | succ fuel ih =>
    intro ws1 hle cs1 h ws2
    cases ws1 with
    | nil =>
      obtain rfl : cs1 = [] := (Option.some.inj h).symm
      simp [parseComponents]
    | cons w rest =>
      simp only [parseComponentsGo] at h
      cases hs : parseSpec (w :: rest) with
      | none => rw [hs] at h; exact Option.noConfusion h
      | some p =>
        obtain ⟨l, r⟩ := p
        rw [hs] at h
        simp only [Option.map_eq_some'] at h
        obtain ⟨cs', hr, rfl⟩ := h
        obtain ⟨hlt, happ⟩ := parseSpec_consume_append _ _ _ hs
        have hrfuel : r.length ≤ fuel := by
          simp only [List.length_cons] at hlt hle
          omega
        have hrec := ih r hrfuel cs' hr ws2
        have hfr : (r ++ ws2).length ≤ (rest ++ ws2).length := by
          simp only [List.length_append, List.length_cons] at hlt ⊢
          omega
        calc parseComponents ((w :: rest) ++ ws2)
            = parseComponentsGo ((rest ++ ws2).length + 1) (w :: (rest ++ ws2)) := by
              simp only [parseComponents, List.cons_append, List.length_cons]
          _ = (parseComponentsGo (rest ++ ws2).length (r ++ ws2)).map (fun cs => l :: cs) := by
              simp only [parseComponentsGo, show w :: (rest ++ ws2) = (w :: rest) ++ ws2 from rfl,
                happ ws2]
          _ = (parseComponents (r ++ ws2)).map (fun cs => l :: cs) := by
              rw [parseComponentsGo_fuel _ _ hfr]
              rfl
          _ = ((parseComponents ws2).map (fun cs2 => cs' ++ cs2)).map (fun cs => l :: cs) := by
              rw [hrec]
          _ = (parseComponents ws2).map (fun cs2 => (l :: cs') ++ cs2) := by
              rw [Option.map_map]
              rfl

/-- `Limits` addition is associative (per-field right-biased choice is). -/
theorem limits_add_assoc (a b c : Limits) : a + b + c = a + (b + c) := by
  obtain ⟨an, at'⟩ := a
  obtain ⟨bn, bt⟩ := b
  obtain ⟨cn, ct⟩ := c
  show Limits.add (Limits.add _ _) _ = Limits.add _ (Limits.add _ _)
  cases bn <;> cases bt <;> cases cn <;> cases ct <;> rfl

/-- `Limits::infinite()` is a left identity for the merge. -/
theorem limits_infinite_add (x : Limits) : Limits.infinite + x = x := by
  obtain ⟨xn, xt⟩ := x
  show Limits.add _ _ = _
  cases xn <;> cases xt <;> rfl

/-- Folding `+` from any accumulator factors through the fold from
`infinite`. -/
theorem limits_foldl_add (cs : List Limits) :
    ∀ a : Limits, cs.foldl (fun x y => x + y) a =
      a + cs.foldl (fun x y => x + y) Limits.infinite := by
  induction cs with
  | nil =>
      intro a
      show a = Limits.add a Limits.infinite
      obtain ⟨an, at'⟩ := a
      rfl
  | cons c cs ih =>
      intro a
      show List.foldl _ (a + c) cs = a + List.foldl _ (Limits.infinite + c) cs
      rw [ih (a + c), ih (Limits.infinite + c), limits_infinite_add, limits_add_assoc]

/-- C7: `Limits` addition is the right-biased field-wise merge (each field
of `a + b` is `b`'s when set, else `a`'s), and parsing folds specifiers
left to right from `infinite`, so a parsed suffix overrides a parsed prefix
field-wise: parsing `ws1 ++ ws2` yields `l1 + l2`. -/
theorem limits_add_and_parse_spec :
    (∀ a b : Limits, (a + b).nodes = b.nodes.or a.nodes ∧ (a + b).time = b.time.or a.time) ∧
    (∀ ws1 ws2 : List String, ∀ l1 l2 : Limits,
      parseLimits ws1 = some l1 → parseLimits ws2 = some l2 →
      parseLimits (ws1 ++ ws2) = some (l1 + l2)) := by
  constructor
  · intro a b
    constructor
    · show (Limits.add a b).nodes = _
      cases hb : b.nodes <;> simp [Limits.add, hb, Option.or]
    · show (Limits.add a b).time = _
      cases hb : b.time <;> simp [Limits.add, hb, Option.or]
  · intro ws1 ws2 l1 l2 h1 h2
    obtain ⟨cs1, hcs1, hl1⟩ := Option.map_eq_some'.1 h1
    obtain ⟨cs2, hcs2, hl2⟩ := Option.map_eq_some'.1 h2
    rw [parseLimits, parseComponentsGo_append ws1.length ws1 le_rfl cs1 hcs1 ws2, hcs2]
    subst hl1
    subst hl2
    simp only [Option.map_some']
    rw [List.foldl_append, limits_foldl_add cs2 (cs1.foldl (fun x y => x + y) Limits.infinite)]

/-- C7 witness: the parse-append law applied at two concrete specifier
lists. -/
theorem limits_add_and_parse_spec_witness :
    parseLimits (["infinite"] ++ ["infinite", "infinite"]) =
      some (Limits.infinite + Limits.infinite) :=
  limits_add_and_parse_spec.2 ["infinite"] ["infinite", "infinite"]
    Limits.infinite Limits.infinite rfl rfl

/-- Successful tree lookup through a handle: the handle is non-null and in
range. -/
theorem getNode_eq_some {μ α : Type} (tree : Tree μ α) (h : Handle) (n : Node μ α)
    (hg : getNode tree h = some n) :
    h.isNull = false ∧ tree.get? h.val = some n := by
  unfold getNode at hg
  rcases hb : h.isNull with _ | _
  · rw [hb] at hg
    exact ⟨rfl, by simpa using hg⟩
  · rw [hb] at hg
    exact Option.noConfusion hg

/-- `add_visit` only touches `wl` and `visits`; the parent chain read off
the updated tree is unchanged. -/
theorem parentChainGo_set {μ α : Type} [Add α] (fuel : Nat) :
    ∀ (tree : Tree μ α) (j : Nat) (n₀ : Node μ α) (v : α),
      tree.get? j = some n₀ →
      ∀ h : Handle, parentChainGo fuel (tree.set j (n₀.add_visit v)) h =
        parentChainGo fuel tree h := by
  induction fuel with
  | zero => intro tree j n₀ v hj h; rfl
  | succ fuel ih =>
    intro tree j n₀ v hj h
    rw [parentChainGo, parentChainGo]
    cases hn : getNode tree h with
    | none =>
      have hn' : getNode (tree.set j (n₀.add_visit v)) h = none := by
        unfold getNode at hn ⊢
        rcases hb : h.isNull with _ | _
        · rw [hb] at hn
          simp only [Bool.false_eq_true, if_false] at hn ⊢
          by_cases hvj : h.val = j
          · rw [hvj, hj] at hn
            exact Option.noConfusion hn
          · rw [List.get?_set_ne _ _ (fun hh => hvj hh.symm)]
            exact hn
        · simp only [if_true]
      rw [hn']
    | some n =>
      have hn' : getNode (tree.set j (n₀.add_visit v)) h =
          some (if h.val = j then n₀.add_visit v else n) := by
        unfold getNode at hn ⊢
        rcases hb : h.isNull with _ | _
        · rw [hb] at hn
          simp only [Bool.false_eq_true, if_false] at hn ⊢
          by_cases hvj : h.val = j
          · rw [if_pos hvj, hvj, List.get?_set_eq_of_lt _ ((List.get?_eq_some.1 hj).1)]
          · rw [if_neg hvj, List.get?_set_ne _ _ (fun hh => hvj hh.symm)]
            exact hn
        · rw [hb] at hn
          simp only [if_true] at hn
          exact Option.noConfusion hn
      rw [hn']
      simp only []
      by_cases hvj : h.val = j
      · have hn₀ : n = n₀ := by
          have hgetv := (getNode_eq_some tree h n hn).2
          rw [hvj] at hgetv
          exact Option.some.inj (hgetv.symm.trans hj)
        subst hn₀
        rw [if_pos hvj]
        have hpar : (n.add_visit v).parent = n.parent := rfl
        rw [hpar, ih tree j n v hj n.parent]
      · rw [if_neg hvj, ih tree j n₀ v hj n.parent]

/-- The credited value flips once per step up the chain. -/
theorem flipVal_step {α : Type} [LinearOrderedField α] (value : α) (d : Nat) :
    flipVal (1 - value) d = flipVal value (d + 1) := by
  unfold flipVal
  rcases Nat.mod_two_eq_zero_or_one d with hd | hd <;>
    simp [hd, Nat.add_mod, sub_sub_cancel]

/-- The chain starts at the handle it was built from. -/
theorem parentChainGo_head {μ α : Type} (fuel : Nat) (tree : Tree μ α) (h : Handle)
    (chain : List Nat) (hc : parentChainGo fuel tree h = some chain) :
    chain.get? 0 = some h.val := by
  cases fuel with
  | zero => exact Option.noConfusion hc
  | succ fuel =>
    rw [parentChainGo] at hc
    cases hn : getNode tree h with
    | none =>
      rw [hn] at hc
      simp only [] at hc
      exact Option.noConfusion hc
    | some n =>
      rw [hn] at hc
      simp only [] at hc
      cases hb : n.parent.isNull with
      | false =>
        rw [hb] at hc
        simp only [Bool.false_eq_true, if_false] at hc
        obtain ⟨rest, _, rfl⟩ := Option.map_eq_some'.1 hc
        rfl
      | true =>
        rw [hb] at hc
        simp only [if_true] at hc
        obtain rfl := (Option.some.inj hc).symm
        rfl

/-- The chain ends at a node whose parent handle is null (the root). -/
theorem parentChainGo_last {μ α : Type} :
    ∀ (fuel : Nat) (tree : Tree μ α) (h : Handle) (chain : List Nat),
      parentChainGo fuel tree h = some chain →
      ∃ i n, chain.getLast? = some i ∧ tree.get? i = some n ∧ n.parent.isNull = true := by
  intro fuel
  induction fuel with
  | zero => intro tree h chain hc; exact Option.noConfusion hc
  | succ fuel ih =>
    intro tree h chain hc
    rw [parentChainGo] at hc
    cases hn : getNode tree h with
    | none =>
      rw [hn] at hc
      simp only [] at hc
      exact Option.noConfusion hc
    | some n =>
      rw [hn] at hc
      simp only [] at hc
      cases hb : n.parent.isNull with
      | false =>
        rw [hb] at hc
        simp only [Bool.false_eq_true, if_false] at hc
        obtain ⟨rest, hrest, rfl⟩ := Option.map_eq_some'.1 hc
        obtain ⟨i, m, hlast, hget, hnull⟩ := ih tree n.parent rest hrest
        refine ⟨i, m, ?_, hget, hnull⟩
        cases rest with
        | nil => exact Option.noConfusion hlast
        | cons r rs => rw [List.getLast?_cons_cons]; exact hlast
      | true =>
        rw [hb] at hc
        simp only [if_true] at hc
        obtain rfl := (Option.some.inj hc).symm
        exact ⟨h.val, n, rfl, (getNode_eq_some tree h n hn).2, hb⟩

/-- The fuelled backpropagation loop: every chain node is credited once
with the appropriately flipped value, and the rest of the tree is
untouched. -/
theorem backpropGo_spec {μ α : Type} [LinearOrderedField α] :
    ∀ (fuel : Nat) (tree : Tree μ α) (h : Handle) (value : α) (chain : List Nat),
      parentChainGo fuel tree h = some chain → chain.Nodup →
      ∃ tree', backpropGo fuel tree h value = some tree' ∧
        tree'.length = tree.length ∧
        (∀ d i, chain.get? d = some i → ∃ n, tree.get? i = some n ∧
            tree'.get? i = some (n.add_visit (flipVal value d))) ∧
        (∀ i, i ∉ chain → tree'.get? i = tree.get? i) := by
  intro fuel
  induction fuel with
  | zero => intro tree h value chain hc _; exact Option.noConfusion hc
  | succ fuel ih =>
    intro tree h value chain hc hnd
    rw [parentChainGo] at hc
    cases hn : getNode tree h with
    | none =>
      rw [hn] at hc
      simp only [] at hc
      exact Option.noConfusion hc
    | some n =>
      rw [hn] at hc
      simp only [] at hc
      obtain ⟨hnotnull, hget⟩ := getNode_eq_some tree h n hn
      have hlen : h.val < tree.length := (List.get?_eq_some.1 hget).1
      cases hb : n.parent.isNull with
      | false =>
        rw [hb] at hc
        simp only [Bool.false_eq_true, if_false] at hc
        obtain ⟨rest, hrest, rfl⟩ := Option.map_eq_some'.1 hc
        have hnotin : h.val ∉ rest := (List.nodup_cons.1 hnd).1
        have hndrest : rest.Nodup := (List.nodup_cons.1 hnd).2
        have hrest' : parentChainGo fuel (tree.set h.val (n.add_visit value)) n.parent =
            some rest := by rw [parentChainGo_set fuel tree h.val n value hget]; exact hrest
        obtain ⟨tree'', hbp, hlen'', hcred, huntouched⟩ :=
          ih (tree.set h.val (n.add_visit value)) n.parent (1 - value) rest hrest' hndrest
        refine ⟨tree'', ?_, ?_, ?_, ?_⟩
        · rw [backpropGo, hn]
          simp only []
          rw [hb]
          simp only [Bool.false_eq_true, if_false]
          exact hbp
        · rw [hlen'']
          exact List.length_set ..
        · intro d i hdi
          cases d with
          | zero =>
            obtain rfl : i = h.val := Option.some.inj hdi.symm
            refine ⟨n, hget, ?_⟩
            rw [huntouched h.val hnotin, List.get?_set_eq_of_lt _ hlen]
            simp [flipVal]
          | succ d' =>
            have hdi' : rest.get? d' = some i := hdi
            have hine : i ≠ h.val := by
              intro hh
              exact hnotin (hh ▸ List.get?_mem hdi')
            obtain ⟨m, hm, hm'⟩ := hcred d' i hdi'
            rw [List.get?_set_ne _ _ (fun hh => hine hh.symm)] at hm
            exact ⟨m, hm, by rw [hm', flipVal_step]⟩
        · intro i hi
          have hine : i ≠ h.val := fun hh => hi (hh ▸ List.mem_cons_self ..)
          have hirest : i ∉ rest := fun hh => hi (List.mem_cons_of_mem _ hh)
          rw [huntouched i hirest, List.get?_set_ne _ _ (fun hh => hine hh.symm)]
      | true =>
        rw [hb] at hc
        simp only [if_true] at hc
        obtain rfl := (Option.some.inj hc).symm
        refine ⟨tree.set h.val (n.add_visit value), ?_, List.length_set .., ?_, ?_⟩
        · rw [backpropGo, hn]
          simp only []
          rw [hb]
          simp only [if_true]
        · intro d i hdi
          cases d with
          | zero =>
            obtain rfl : i = h.val := Option.some.inj hdi.symm
            exact ⟨n, hget, by rw [List.get?_set_eq_of_lt _ hlen]; simp [flipVal]⟩
          | succ d' => exact Option.noConfusion hdi
        · intro i hi
          have hine : i ≠ h.val := fun hh => hi (hh ▸ List.mem_cons_self ..)
          rw [List.get?_set_ne _ _ (fun hh => hine hh.symm)]

/-- C2: `backpropagate` credits the starting node with `value` (adding it
to `wl` and incrementing `visits`), then walks the parent chain, flipping
the value to `1 - value` at each step up and crediting each ancestor with
the flipped value, stopping at the node with a null parent; no other node
changes. -/
theorem backpropagate_spec {μ α : Type} [LinearOrderedField α] (tree : Tree μ α)
    (node : Handle) (value : α) (chain : List Nat)
    (hchain : parentChain tree node = some chain) (hnodup : chain.Nodup) :
    ∃ tree', backpropagate tree node value = some tree' ∧
      tree'.length = tree.length ∧
      chain.get? 0 = some node.val ∧
      (∀ d i, chain.get? d = some i → ∃ n, tree.get? i = some n ∧
          tree'.get? i = some (n.add_visit (flipVal value d))) ∧
      (∀ i, i ∉ chain → tree'.get? i = tree.get? i) ∧
      (∃ i n, chain.getLast? = some i ∧ tree.get? i = some n ∧ n.parent.isNull = true) := by
  obtain ⟨tree', hbp, hlen, hcred, hrest⟩ :=
    backpropGo_spec (tree.length + 1) tree node value chain hchain hnodup
  exact ⟨tree', hbp, hlen, parentChainGo_head _ tree node chain hchain, hcred, hrest,
    parentChainGo_last _ tree node chain hchain⟩

/-- C2 witness: a two-node tree (root plus one child); backpropagating
`1/4` from the child credits the child with `1/4` and the root with the
flipped `3/4`, touching nothing else. -/
theorem backpropagate_spec_witness :
    ∃ tree' : Tree Nat Rat,
      backpropagate
        [Node.mk (1/2) none Handle.null ⟨1⟩ Handle.null 3 0
          TerminalKind.nonTerminal GameResult.ongoing GameResult.ongoing,
         Node.mk 0 none ⟨0⟩ Handle.null Handle.null 1 0
          TerminalKind.nonTerminal GameResult.ongoing GameResult.ongoing]
        ⟨1⟩ (1/4) = some tree' ∧
      tree'.length = 2 ∧
      ([1, 0] : List Nat).get? 0 = some 1 ∧
      (∀ d i, ([1, 0] : List Nat).get? d = some i → ∃ n,
          ([Node.mk (1/2) none Handle.null ⟨1⟩ Handle.null 3 0
              TerminalKind.nonTerminal GameResult.ongoing GameResult.ongoing,
            Node.mk 0 none ⟨0⟩ Handle.null Handle.null 1 0
              TerminalKind.nonTerminal GameResult.ongoing GameResult.ongoing] :
            Tree Nat Rat).get? i = some n ∧
          tree'.get? i = some (n.add_visit (flipVal (1/4) d))) ∧
      (∀ i, i ∉ ([1, 0] : List Nat) → tree'.get? i =
          ([Node.mk (1/2) none Handle.null ⟨1⟩ Handle.null 3 0
              TerminalKind.nonTerminal GameResult.ongoing GameResult.ongoing,
            Node.mk 0 none ⟨0⟩ Handle.null Handle.null 1 0
              TerminalKind.nonTerminal GameResult.ongoing GameResult.ongoing] :
            Tree Nat Rat).get? i) ∧
      (∃ i n, ([1, 0] : List Nat).getLast? = some i ∧
          ([Node.mk (1/2) none Handle.null ⟨1⟩ Handle.null 3 0
              TerminalKind.nonTerminal GameResult.ongoing GameResult.ongoing,
            Node.mk 0 none ⟨0⟩ Handle.null Handle.null 1 0
              TerminalKind.nonTerminal GameResult.ongoing GameResult.ongoing] :
            Tree Nat Rat).get? i = some n ∧ n.parent.isNull = true) :=
  backpropagate_spec
    [Node.mk (1/2) none Handle.null ⟨1⟩ Handle.null 3 0
      TerminalKind.nonTerminal GameResult.ongoing GameResult.ongoing,
     Node.mk 0 none ⟨0⟩ Handle.null Handle.null 1 0
      TerminalKind.nonTerminal GameResult.ongoing GameResult.ongoing]
    ⟨1⟩ (1/4) [1, 0] (by rfl) (by decide)

/-- The `best_move` sibling walk, fuelled: either no child beats the
running best and the accumulator survives, or the result is the move of
the first child attaining the maximum visit count among the walked
children, strictly above the accumulator. -/
theorem bestMoveGo_spec {μ α : Type} (tree : Tree μ α) (eo : Option (List (Edge μ α))) :
    ∀ (fuel : Nat) (h : Handle) (kids : List (Handle × Node μ α)) (bm : Option μ) (bv : Int)
      (r : Option μ),
      siblingWalk tree fuel h = some kids →
      bestMoveGo tree eo fuel h bm bv = some r →
      ((∀ k p, kids.get? k = some p → (p.2.visits : Int) ≤ bv) ∧ r = bm) ∨
      (∃ k p, kids.get? k = some p ∧ ∃ edges ed, eo = some edges ∧
        edges.get? p.2.index = some ed ∧ r = some ed.pov_move ∧
        bv < (p.2.visits : Int) ∧
        (∀ k' q, kids.get? k' = some q → q.2.visits ≤ p.2.visits) ∧
        (∀ k' q, kids.get? k' = some q → k' < k → q.2.visits < p.2.visits)) := by
  intro fuel
  induction fuel with
  | zero => intro h kids bm bv r hw _; exact Option.noConfusion hw
  | succ fuel ih =>
    intro h kids bm bv r hw hgo
    rw [siblingWalk] at hw
    rw [bestMoveGo] at hgo
    cases hb : h.isNull with
    | true =>
      rw [hb] at hw hgo
      simp only [if_true] at hw hgo
      obtain rfl := (Option.some.inj hw).symm
      obtain rfl := Option.some.inj hgo
      exact Or.inl ⟨fun k p hk => Option.noConfusion hk, rfl⟩
    | false =>
      rw [hb] at hw hgo
      simp only [Bool.false_eq_true, if_false] at hw hgo
      cases hn : getNode tree h with
      | none =>
        rw [hn] at hw
        simp only [] at hw
        exact Option.noConfusion hw
      | some n =>
        rw [hn] at hw hgo
        simp only [] at hw hgo
        obtain ⟨rest, hrest, rfl⟩ := Option.map_eq_some'.1 hw
        by_cases hlt : bv < (n.visits : Int)
        · rw [if_pos hlt] at hgo
          cases eo with
          | none => exact Option.noConfusion hgo
          | some edges =>
            simp only [] at hgo
            cases hed : edges.get? n.index with
            | none =>
              rw [hed] at hgo
              exact Option.noConfusion hgo
            | some ed =>
              rw [hed] at hgo
              rcases ih n.sibling rest (some ed.pov_move) (n.visits : Int) r hrest hgo with
                ⟨hall, rfl⟩ | ⟨k, p, hk, edges', ed', heo, hed', hr, hbv, hle, hstrict⟩
              · refine Or.inr ⟨0, (h, n), rfl, edges, ed, rfl, hed, rfl, hlt, ?_, ?_⟩
                · intro k' q hk'
                  cases k' with
                  | zero => obtain rfl := Option.some.inj hk'; exact le_rfl
                  | succ k'' =>
                    exact_mod_cast hall k'' q hk'
                · intro k' q hk' hk'0
                  exact absurd hk'0 (Nat.not_lt_zero k')
              · have hnp : n.visits < p.2.visits := by exact_mod_cast hbv
                refine Or.inr ⟨k + 1, p, hk, edges', ed', heo, hed', hr, ?_, ?_, ?_⟩
                · exact lt_trans hlt (by exact_mod_cast hnp)
                · intro k' q hk'
                  cases k' with
                  | zero => obtain rfl := Option.some.inj hk'; exact le_of_lt hnp
                  | succ k'' => exact hle k'' q hk'
                · intro k' q hk' hk'k
                  cases k' with
                  | zero => obtain rfl := Option.some.inj hk'; exact hnp
                  | succ k'' => exact hstrict k'' q hk' (Nat.lt_of_succ_lt_succ hk'k)
        · rw [if_neg hlt] at hgo
          have hnle : (n.visits : Int) ≤ bv := le_of_not_lt hlt
          rcases ih n.sibling rest bm bv r hrest hgo with
            ⟨hall, rfl⟩ | ⟨k, p, hk, edges', ed', heo, hed', hr, hbv, hle, hstrict⟩
          · refine Or.inl ⟨?_, rfl⟩
            intro k' q hk'
            cases k' with
            | zero => obtain rfl := Option.some.inj hk'; exact hnle
            | succ k'' => exact hall k'' q hk'
          · have hnp : n.visits < p.2.visits := by
              have := lt_of_le_of_lt hnle hbv
              exact_mod_cast this
            refine Or.inr ⟨k + 1, p, hk, edges', ed', heo, hed', hr, hbv, ?_, ?_⟩
            · intro k' q hk'
              cases k' with
              | zero => obtain rfl := Option.some.inj hk'; exact le_of_lt hnp
              | succ k'' => exact hle k'' q hk'
            · intro k' q hk' hk'k
              cases k' with
              | zero => obtain rfl := Option.some.inj hk'; exact hnp
              | succ k'' => exact hstrict k'' q hk' (Nat.lt_of_succ_lt_succ hk'k)

/-- C6: `best_move` walks the sibling list and returns the move of the
instantiated child with maximum visits; among children with equal maximal
visit counts the first in sibling order wins, and edges without an
instantiated child never participate (only walked children compete). -/
theorem best_move_spec {μ α : Type} (tree : Tree μ α) (self : Node μ α) (mv : μ)
    (kids : List (Handle × Node μ α))
    (hwalk : siblingWalk tree (tree.length + 1) self.child = some kids)
    (hbm : self.best_move tree = some mv) :
    ∃ k p, kids.get? k = some p ∧ ∃ edges ed, self.edges = some edges ∧
      edges.get? p.2.index = some ed ∧ mv = ed.pov_move ∧
      (∀ k' q, kids.get? k' = some q → q.2.visits ≤ p.2.visits) ∧
      (∀ k' q, kids.get? k' = some q → k' < k → q.2.visits < p.2.visits) := by
  unfold Node.best_move at hbm
  cases hgo : bestMoveGo tree self.edges (tree.length + 1) self.child none (-1) with
  | none => rw [hgo] at hbm; exact Option.noConfusion hbm
  | some bm =>
    rw [hgo] at hbm
    simp only [] at hbm
    subst hbm
    rcases bestMoveGo_spec tree self.edges (tree.length + 1) self.child kids none (-1)
        (some mv) hwalk hgo with
      ⟨_, habs⟩ | ⟨k, p, hk, edges, ed, heo, hed, hr, _, hle, hstrict⟩
    · exact Option.noConfusion habs
    · obtain rfl := Option.some.inj hr
      exact ⟨k, p, hk, edges, ed, heo, hed, rfl, hle, hstrict⟩

/-- C6 witness: a root with two instantiated children of 2 and 5 visits;
`best_move` returns the move of the 5-visit child. -/
theorem best_move_spec_witness :
    ∃ k p, ([(⟨1⟩, Node.mk 1 none ⟨0⟩ Handle.null ⟨2⟩ 2 0 TerminalKind.nonTerminal GameResult.ongoing GameResult.ongoing), (⟨2⟩, Node.mk 3 none ⟨0⟩ Handle.null Handle.null 5 1 TerminalKind.nonTerminal GameResult.ongoing GameResult.ongoing)] : List (Handle × Node Nat Rat)).get? k = some p ∧ ∃ edges ed,
      (Node.mk 0 (some [Edge.mk 10 (1/2), Edge.mk 11 (1/2)]) Handle.null ⟨1⟩ Handle.null 7 0 TerminalKind.nonTerminal GameResult.ongoing GameResult.ongoing : Node Nat Rat).edges = some edges ∧
      edges.get? p.2.index = some ed ∧ (11 : Nat) = ed.pov_move ∧
      (∀ k' q, ([(⟨1⟩, Node.mk 1 none ⟨0⟩ Handle.null ⟨2⟩ 2 0 TerminalKind.nonTerminal GameResult.ongoing GameResult.ongoing), (⟨2⟩, Node.mk 3 none ⟨0⟩ Handle.null Handle.null 5 1 TerminalKind.nonTerminal GameResult.ongoing GameResult.ongoing)] : List (Handle × Node Nat Rat)).get? k' = some q → q.2.visits ≤ p.2.visits) ∧
      (∀ k' q, ([(⟨1⟩, Node.mk 1 none ⟨0⟩ Handle.null ⟨2⟩ 2 0 TerminalKind.nonTerminal GameResult.ongoing GameResult.ongoing), (⟨2⟩, Node.mk 3 none ⟨0⟩ Handle.null Handle.null 5 1 TerminalKind.nonTerminal GameResult.ongoing GameResult.ongoing)] : List (Handle × Node Nat Rat)).get? k' = some q → k' < k → q.2.visits < p.2.visits) :=
  best_move_spec [Node.mk 0 (some [Edge.mk 10 (1/2), Edge.mk 11 (1/2)]) Handle.null ⟨1⟩ Handle.null 7 0 TerminalKind.nonTerminal GameResult.ongoing GameResult.ongoing, Node.mk 1 none ⟨0⟩ Handle.null ⟨2⟩ 2 0 TerminalKind.nonTerminal GameResult.ongoing GameResult.ongoing, Node.mk 3 none ⟨0⟩ Handle.null Handle.null 5 1 TerminalKind.nonTerminal GameResult.ongoing GameResult.ongoing] (Node.mk 0 (some [Edge.mk 10 (1/2), Edge.mk 11 (1/2)]) Handle.null ⟨1⟩ Handle.null 7 0 TerminalKind.nonTerminal GameResult.ongoing GameResult.ongoing) 11
    [(⟨1⟩, Node.mk 1 none ⟨0⟩ Handle.null ⟨2⟩ 2 0 TerminalKind.nonTerminal GameResult.ongoing GameResult.ongoing), (⟨2⟩, Node.mk 3 none ⟨0⟩ Handle.null Handle.null 5 1 TerminalKind.nonTerminal GameResult.ongoing GameResult.ongoing)] (by rfl) (by rfl)


/-- Unfolding a batch slot in the per-pipe reply filter. -/
theorem pipeBatchReplies_cons {α : Type} (pipe p0 : Nat) (r0 : Reply α)
    (rest : List (Nat × Reply α)) :
    pipeBatchReplies pipe ((p0, r0) :: rest) =
      if p0 = pipe then r0 :: pipeBatchReplies pipe rest
      else pipeBatchReplies pipe rest := by
  by_cases hp : p0 = pipe <;>
    simp [pipeBatchReplies, List.filter_cons, hp]

/-- The fan-out loop of `tick`: each pipe's channel gains exactly the
replies of its own batch slots, appended in slot order; nothing else
changes. -/
theorem sendLoop_spec {α : Type} :
    ∀ (pairs : List (Nat × Reply α)) (replies : List (List (Reply α))),
      (∀ q ∈ pairs, q.1 < replies.length) →
      ∃ replies', sendLoop replies pairs = some replies' ∧
        replies'.length = replies.length ∧
        ∀ pipe, replies'.get? pipe =
          (replies.get? pipe).map (fun l => l ++ pipeBatchReplies pipe pairs) := by
  intro pairs
  induction pairs with
  | nil =>
    intro replies _
    refine ⟨replies, rfl, rfl, fun pipe => ?_⟩
    cases replies.get? pipe <;> simp [pipeBatchReplies]
  | cons q rest ih =>
    intro replies hvalid
    obtain ⟨p0, r0⟩ := q
    have hp0 : p0 < replies.length := hvalid (p0, r0) (List.mem_cons_self ..)
    obtain ⟨l0, hl0⟩ : ∃ l, replies.get? p0 = some l := by
      rw [List.get?_eq_get hp0]
      exact ⟨_, rfl⟩
    have hvalid' : ∀ q ∈ rest, q.1 < (replies.set p0 (l0 ++ [r0])).length := by
      intro q hq
      rw [List.length_set]
      exact hvalid q (List.mem_cons_of_mem _ hq)
    obtain ⟨replies', hloop, hlen, hget⟩ := ih (replies.set p0 (l0 ++ [r0])) hvalid'
    refine ⟨replies', ?_, by rw [hlen, List.length_set], fun pipe => ?_⟩
    · rw [sendLoop, sendReply, hl0]
      exact hloop
    · rw [hget pipe, pipeBatchReplies_cons]
      by_cases hpp : p0 = pipe
      · subst hpp
        rw [List.get?_set_eq_of_lt _ hp0, hl0, if_pos rfl]
        simp
      · rw [List.get?_set_ne _ _ hpp, if_neg hpp]

/-- Reading the network rows for the batch pairs slot `i` with pipe `i`,
in order. -/
theorem gatherOuts_spec {G α : Type} (outs : List (Reply α)) :
    ∀ (batch : List (Nat × G)) (i : Nat), i + batch.length ≤ outs.length →
      gatherOuts outs batch i = some ((batch.map Prod.fst).zip (outs.drop i)) := by
  intro batch
  induction batch with
  | nil => intro i _; rfl
  | cons b rest ih =>
    intro i hle
    obtain ⟨p, g⟩ := b
    have hi : i < outs.length := by
      simp only [List.length_cons] at hle
      omega
    have hget : outs.get? i = some (outs.get ⟨i, hi⟩) := List.get?_eq_get hi
    have hdrop : outs.drop i = outs.get ⟨i, hi⟩ :: outs.drop (i + 1) := by
      rw [List.drop_eq_get_cons hi]
    rw [gatherOuts, hget, ih (i + 1) (by simp only [List.length_cons] at hle; omega),
      hdrop]
    rfl

/-- C5: the per-batch capacity of `Executor::new` is
`min(requested pipes, 1024)`, and one `tick` consumes exactly the first
`B` waiting `(client, position)` pairs in pull order, sending each batch
slot exactly one reply — the policy row and value scalar of that slot — to
the originating pipe; no pulled position is dropped or duplicated. -/
theorem executor_spec (G α : Type) :
    (∀ (hasDevice : Bool) (num_pipes : Nat),
      (ExecutorState.new G α hasDevice num_pipes).batchSize = min num_pipes 1024) ∧
    (∀ (net : List G → List (Reply α)) (ex : ExecutorState G α),
      ex.internal = some () →
      ex.batchSize ≤ ex.inWaiting.length →
      ex.batchSize ≤ (net ((ex.inWaiting.take ex.batchSize).map Prod.snd)).length →
      (∀ p ∈ (ex.inWaiting.take ex.batchSize).map Prod.fst, p < ex.replies.length) →
      ∃ ex', ExecutorState.tick net ex = some ex' ∧
        ex'.inWaiting = ex.inWaiting.drop ex.batchSize ∧
        ex'.batchSize = ex.batchSize ∧
        ex'.internal = ex.internal ∧
        ex'.replies.length = ex.replies.length ∧
        ∀ pipe, ex'.replies.get? pipe = (ex.replies.get? pipe).map
          (fun l => l ++ pipeBatchReplies pipe
            (((ex.inWaiting.take ex.batchSize).map Prod.fst).zip
              (net ((ex.inWaiting.take ex.batchSize).map Prod.snd))))) := by
  constructor
  · intro hasDevice num_pipes
    simp [ExecutorState.new, EXECUTOR_BATCH_SIZE, Nat.min_comm]
  · intro net ex hdev hwait houts hpipes
    have hbatchlen : (ex.inWaiting.take ex.batchSize).length = ex.batchSize :=
      List.length_take_of_le hwait
    have hgather : gatherOuts (net ((ex.inWaiting.take ex.batchSize).map Prod.snd))
        (ex.inWaiting.take ex.batchSize) 0 =
        some (((ex.inWaiting.take ex.batchSize).map Prod.fst).zip
          (net ((ex.inWaiting.take ex.batchSize).map Prod.snd))) := by
      rw [gatherOuts_spec _ _ 0 (by rw [Nat.zero_add, hbatchlen]; exact houts),
        List.drop_zero]
    have hvalid : ∀ q ∈ ((ex.inWaiting.take ex.batchSize).map Prod.fst).zip
        (net ((ex.inWaiting.take ex.batchSize).map Prod.snd)), q.1 < ex.replies.length := by
      intro q hq
      exact hpipes q.1 (List.of_mem_zip hq).1
    obtain ⟨replies', hloop, hlen, hget⟩ := sendLoop_spec _ ex.replies hvalid
    refine ⟨{ ex with inWaiting := ex.inWaiting.drop ex.batchSize, replies := replies' },
      ?_, rfl, rfl, rfl, hlen, hget⟩
    rw [ExecutorState.tick, if_neg (Nat.not_lt.2 hwait), hdev]
    simp only []
    rw [hgather]
    simp only []
    rw [hloop]

/-- C5 witness: a two-pipe executor with a full batch of two positions;
each pipe receives exactly the reply of its own slot. -/
theorem executor_spec_witness :
    ∃ ex', ExecutorState.tick (fun (bs : List Nat) => bs.map (fun b => ([(b : Rat)], (1/2 : Rat))))
        (ExecutorState.mk (G := Nat) (α := Rat) (some ()) [(0, 7), (1, 8)] 2 [[], []]) = some ex' ∧
      ex'.inWaiting =
        (ExecutorState.mk (G := Nat) (α := Rat) (some ()) [(0, 7), (1, 8)] 2
          [[], []]).inWaiting.drop 2 ∧
      ex'.batchSize = 2 ∧
      ex'.internal = some () ∧
      ex'.replies.length = 2 ∧
      ∀ pipe, ex'.replies.get? pipe =
        ((ExecutorState.mk (G := Nat) (α := Rat) (some ()) [(0, 7), (1, 8)] 2
            [[], []]).replies.get? pipe).map
          (fun l => l ++ pipeBatchReplies pipe
            ((((ExecutorState.mk (G := Nat) (α := Rat) (some ()) [(0, 7), (1, 8)] 2
                [[], []]).inWaiting.take 2).map Prod.fst).zip
              ((fun (bs : List Nat) => bs.map (fun b => ([(b : Rat)], (1/2 : Rat))))
                (((ExecutorState.mk (G := Nat) (α := Rat) (some ()) [(0, 7), (1, 8)] 2
                  [[], []]).inWaiting.take 2).map Prod.snd)))) :=
  (executor_spec Nat Rat).2 (fun (bs : List Nat) => bs.map (fun b => ([(b : Rat)], (1/2 : Rat))))
    (ExecutorState.mk (some ()) [(0, 7), (1, 8)] 2 [[], []])
    rfl (by decide) (by decide) (by decide)

/-- `Node::expand` only installs the edge list and terminal information:
parent, edge index, visit count, accumulated value and child links are
untouched — in particular the visit count stays `0`. -/
theorem expand_fields {G μ α : Type} [LinearOrderedField α] (g : GameOps G μ) (exp : α → α)
    (pos : G) (policy : List α) (self n' : Node μ α)
    (h : Node.expand g exp pos policy self = some n') :
    n'.parent = self.parent ∧ n'.index = self.index ∧ n'.visits = self.visits ∧
    n'.wl = self.wl ∧ n'.child = self.child ∧ n'.sibling = self.sibling ∧
    n'.edges.isSome = true := by
  unfold Node.expand at h
  cases hlog : expandLogits g pos policy with
  | none => rw [hlog] at h; exact Option.noConfusion h
  | some logits =>
    rw [hlog] at h
    simp only [] at h
    split at h
    · exact Option.noConfusion h
    · split at h
      · cases ho : g.outcome pos with
        | none =>
          rw [ho] at h
          simp only [] at h
          obtain rfl := (Option.some.inj h).symm
          exact ⟨rfl, rfl, rfl, rfl, rfl, rfl, rfl⟩
        | some p =>
          rw [ho] at h
          cases p <;>
            (simp only [] at h
             obtain rfl := (Option.some.inj h).symm
             exact ⟨rfl, rfl, rfl, rfl, rfl, rfl, rfl⟩)
      · exact Option.noConfusion h

/-- C3 amended: starting `go` with an empty tree allocates the root node
(null parent, edge index 0), submits the root position and expands the
root with the received policy — but leaves the root's visit count at `0`
(the source discards the value half of the evaluator's reply and nothing
increments `visits`); the root first reaches `visits = 1` when a later
backpropagation credits it. -/
theorem searchInit_empty_spec {G μ α : Type} [LinearOrderedField α] (g : GameOps G μ)
    (exp : α → α) (root : G) (policy : List α) (tree' : Tree μ α)
    (h : searchInit g exp root policy ([] : Tree μ α) = some tree') :
    ∃ n₀ n' : Node μ α, Node.new Handle.null 0 = some n₀ ∧
      n₀.expand g exp root policy = some n' ∧
      tree' = [n'] ∧
      n'.parent = Handle.null ∧ n'.index = 0 ∧ n'.edges.isSome = true ∧
      n'.visits = 0 := by
  unfold searchInit at h
  have hnew : (Node.new Handle.null 0 : Option (Node μ α)) =
      some ⟨0, none, Handle.null, Handle.null, Handle.null, 0, 0,
        TerminalKind.nonTerminal, GameResult.ongoing, GameResult.ongoing⟩ := rfl
  rw [hnew] at h
  simp only [List.isEmpty, if_true] at h
  cases hexp : Node.expand g exp root policy
      (⟨0, none, Handle.null, Handle.null, Handle.null, 0, 0,
        TerminalKind.nonTerminal, GameResult.ongoing, GameResult.ongoing⟩ : Node μ α) with
  | none => rw [hexp] at h; exact Option.noConfusion h
  | some n' =>
    rw [hexp] at h
    obtain rfl := (Option.some.inj h).symm
    obtain ⟨hp, hi, hv, _, _, _, he⟩ := expand_fields g exp root policy _ n' hexp
    exact ⟨_, n', hnew, hexp, rfl, hp, hi, he, hv⟩

/-- The empty-tree initialisation evaluated on a one-move toy game. -/
theorem searchInit_toy_eval :
    searchInit toyGame (fun _ => (1 : Rat)) 0 [0] ([] : Tree Nat Rat) =
    some [⟨0, some [⟨0, 1⟩], Handle.null, Handle.null, Handle.null, 0, 0,
      TerminalKind.nonTerminal, GameResult.ongoing, GameResult.ongoing⟩] := by
  rw [searchInit]
  norm_num [Node.new, Node.expand, expandLogits, expandLogitsGo, maxLogit, toyGame]

/-- C3 counterexample: after the empty-tree initialisation on a concrete
one-move game, the root's visit count is `0`, not `1` as the claim
states. -/
theorem searchInit_visits_counterexample :
    ((searchInit toyGame (fun _ => (1 : Rat)) 0 [0] ([] : Tree Nat Rat)).bind
      (fun t => t.get? 0)).map Node.visits = some 0 ∧
    ((searchInit toyGame (fun _ => (1 : Rat)) 0 [0] ([] : Tree Nat Rat)).bind
      (fun t => t.get? 0)).map Node.visits ≠ some 1 := by
  rw [searchInit_toy_eval]
  exact ⟨rfl, by decide⟩

/-- C3 witness: the amended initialisation theorem at the concrete toy
input. -/
theorem searchInit_empty_spec_witness :
    ∃ n₀ n' : Node Nat Rat, Node.new Handle.null 0 = some n₀ ∧
      n₀.expand toyGame (fun _ => (1 : Rat)) 0 [0] = some n' ∧
      ([⟨0, some [⟨0, 1⟩], Handle.null, Handle.null, Handle.null, 0, 0,
        TerminalKind.nonTerminal, GameResult.ongoing, GameResult.ongoing⟩] :
          Tree Nat Rat) = [n'] ∧
      n'.parent = Handle.null ∧ n'.index = 0 ∧ n'.edges.isSome = true ∧
      n'.visits = 0 :=
  searchInit_empty_spec toyGame (fun _ => (1 : Rat)) 0 [0] _ searchInit_toy_eval

/-- Characterisation of the `values` array produced by the linked-list pass
of `uct_best`: slot `i` holds `(child, q + c*p/(1+k))` when the walked
children contain one of edge index `i`, and stays at its initial value
otherwise (given the walked children have pairwise distinct edge
indices). -/
theorem fillValuesGo_spec {μ α : Type} [LinearOrderedField α] (tree : Tree μ α)
    (edges : List (Edge μ α)) (c : α) :
    ∀ (fuel : Nat) (h : Handle) (vals₀ vals : List (Option (Handle × α)))
      (kids : List (Handle × Node μ α)),
      fillValuesGo tree edges c fuel h vals₀ = some vals →
      siblingWalk tree fuel h = some kids →
      (kids.map (fun p => p.2.index)).Nodup →
      vals.length = vals₀.length ∧
      ∀ i, (match kids.find? (fun p => p.2.index == i) with
            | some p => vals.get? i = some (some (p.1,
                p.2.winrate + c * probAt edges i / (1 + (p.2.visits : α)))) ∧
                i < vals₀.length ∧ p.1.isNull = false
            | none => vals.get? i = vals₀.get? i) := by
  intro fuel
  induction fuel with
  | zero => intro h vals₀ vals kids hfill _ _; exact Option.noConfusion hfill
  | succ fuel ih =>
    intro h vals₀ vals kids hfill hwalk hnd
    rw [fillValuesGo] at hfill
    rw [siblingWalk] at hwalk
    cases hb : h.isNull with
    | true =>
      rw [hb] at hfill hwalk
      simp only [if_true] at hfill hwalk
      obtain rfl := Option.some.inj hfill
      obtain rfl := (Option.some.inj hwalk).symm
      exact ⟨rfl, fun i => rfl⟩
    | false =>
      rw [hb] at hfill hwalk
      simp only [Bool.false_eq_true, if_false] at hfill hwalk
      cases hn : getNode tree h with
      | none =>
        rw [hn] at hwalk
        simp only [] at hwalk
        exact Option.noConfusion hwalk
      | some n =>
        rw [hn] at hfill hwalk
        simp only [] at hfill hwalk
        obtain ⟨rest, hrest, rfl⟩ := Option.map_eq_some'.1 hwalk
        cases he : edges.get? n.index with
        | none =>
          rw [he] at hfill
          exact Option.noConfusion hfill
        | some e =>
          rw [he] at hfill
          simp only [] at hfill
          by_cases hidx : n.index < vals₀.length
          · rw [if_pos hidx] at hfill
            have hnd' : (rest.map (fun p => p.2.index)).Nodup := (List.nodup_cons.1 hnd).2
            have hnotin : n.index ∉ rest.map (fun p => p.2.index) := (List.nodup_cons.1 hnd).1
            obtain ⟨hlen, hchar⟩ := ih n.sibling
              (vals₀.set n.index (some (h, n.winrate + c * e.probability / (1 + (n.visits : α)))))
              vals rest hfill hrest hnd'
            constructor
            · rw [hlen, List.length_set]
            · intro i
              by_cases hi : n.index = i
              · subst hi
                have hfind : rest.find? (fun p => p.2.index == n.index) = none := by
                  rw [List.find?_eq_none]
                  intro p hp hpeq
                  exact hnotin (List.mem_map.2 ⟨p, hp, by simpa using hpeq⟩)
                have hchari := hchar n.index
                rw [hfind] at hchari
                have hfc : ((h, n) :: rest).find? (fun p => p.2.index == n.index) =
                    some (h, n) := by
                  rw [List.find?_cons]
                  simp
                rw [hfc]
                refine ⟨?_, hidx, hb⟩
                rw [hchari, List.get?_set_eq_of_lt _ hidx]
                have hprob : probAt edges n.index = e.probability := by
                  rw [probAt, he]
                rw [hprob]
              · have hbeq : (n.index == i) = false := by simp [hi]
                have hfc : ((h, n) :: rest).find? (fun p => p.2.index == i) =
                    rest.find? (fun p => p.2.index == i) := by
                  rw [List.find?_cons, hbeq]
                rw [hfc]
                have hchari := hchar i
                cases hfind : rest.find? (fun p => p.2.index == i) with
                | some p =>
                  rw [hfind] at hchari
                  obtain ⟨hv, hlt, hnull⟩ := hchari
                  exact ⟨hv, by rwa [List.length_set] at hlt, hnull⟩
                | none =>
                  rw [hfind] at hchari
                  rw [hchari, List.get?_set_ne _ _ hi]
          · rw [if_neg hidx] at hfill
            exact Option.noConfusion hfill

/-- The selection loop from an arbitrary accumulator: either no entry beats
the running best and the accumulator survives, or the result is the first
entry attaining the maximum among the remaining entries and the best. -/
theorem uctLoop_spec {μ α : Type} [LinearOrderedField α] (c fpu : α)
    (edges : List (Edge μ α)) :
    ∀ (vs : List (Option (Handle × α))) (idx₀ bi : Nat) (bv : α) (bc : Handle)
      (j : Nat) (jvo : Option α) (jc : Handle),
      uctLoop c fpu edges idx₀ vs (bi, some bv, bc) = (j, jvo, jc) →
      (((j, jvo, jc) = ((bi, some bv, bc) : Nat × Option α × Handle)) ∧
        ∀ k v, vs.get? k = some v → entryScore c fpu edges (idx₀ + k) v ≤ bv) ∨
      (∃ k v, vs.get? k = some v ∧ j = idx₀ + k ∧
        jvo = some (entryScore c fpu edges (idx₀ + k) v) ∧
        jc = entryChild v ∧
        bv < entryScore c fpu edges (idx₀ + k) v ∧
        (∀ k' v', vs.get? k' = some v' →
          entryScore c fpu edges (idx₀ + k') v' ≤ entryScore c fpu edges (idx₀ + k) v) ∧
        (∀ k' v', vs.get? k' = some v' → k' < k →
          entryScore c fpu edges (idx₀ + k') v' < entryScore c fpu edges (idx₀ + k) v)) := by
  intro vs
  induction vs with
  | nil =>
    intro idx₀ bi bv bc j jvo jc hloop
    exact Or.inl ⟨hloop.symm, fun k v hk => Option.noConfusion hk⟩
  | cons v rest ih =>
    intro idx₀ bi bv bc j jvo jc hloop
    have hshift : ∀ m : Nat, idx₀ + 1 + m = idx₀ + (m + 1) := fun m => by omega
    rw [uctLoop] at hloop
    by_cases hlt : bv < entryScore c fpu edges idx₀ v
    · rw [if_pos (by simp [beats, hlt])] at hloop
      rcases ih (idx₀ + 1) idx₀ (entryScore c fpu edges idx₀ v) (entryChild v) j jvo jc hloop with
        ⟨heq, hall⟩ | ⟨k, w, hk, hj, hjvo, hjc, hbv, hle, hstrict⟩
      · have hj : j = idx₀ := congrArg Prod.fst heq
        have hrest : jvo = some (entryScore c fpu edges idx₀ v) :=
          congrArg (fun t => t.2.1) heq
        have hjc : jc = entryChild v := congrArg (fun t => t.2.2) heq
        refine Or.inr ⟨0, v, rfl, by simpa using hj, by simpa using hrest,
          hjc, by simpa using hlt, ?_, ?_⟩
        · intro k' v' hk'
          cases k' with
          | zero =>
            obtain rfl := Option.some.inj hk'
            exact le_rfl
          | succ k'' =>
            rw [← hshift k'']
            simpa using hall k'' v' hk'
        · intro k' v' _ hk'0
          exact absurd hk'0 (Nat.not_lt_zero k')
      · refine Or.inr ⟨k + 1, w, hk, by omega, by rw [hjvo, hshift k], by rw [hjc], ?_, ?_, ?_⟩
        · rw [← hshift k]
          exact lt_trans hlt hbv
        · intro k' v' hk'
          cases k' with
          | zero =>
            obtain rfl := Option.some.inj hk'
            rw [← hshift k]
            simpa using le_of_lt hbv
          | succ k'' =>
            rw [← hshift k'', ← hshift k]
            exact hle k'' v' hk'
        · intro k' v' hk' hk'k
          cases k' with
          | zero =>
            obtain rfl := Option.some.inj hk'
            rw [← hshift k]
            simpa using hbv
          | succ k'' =>
            rw [← hshift k'', ← hshift k]
            exact hstrict k'' v' hk' (Nat.lt_of_succ_lt_succ hk'k)
    · rw [if_neg (by simp [beats, hlt])] at hloop
      have hnle : entryScore c fpu edges idx₀ v ≤ bv := le_of_not_lt hlt
      rcases ih (idx₀ + 1) bi bv bc j jvo jc hloop with
        ⟨heq, hall⟩ | ⟨k, w, hk, hj, hjvo, hjc, hbv, hle, hstrict⟩
      · refine Or.inl ⟨heq, ?_⟩
        intro k' v' hk'
        cases k' with
        | zero =>
          obtain rfl := Option.some.inj hk'
          simpa using hnle
        | succ k'' =>
          rw [← hshift k'']
          exact hall k'' v' hk'
      · refine Or.inr ⟨k + 1, w, hk, by omega, by rw [hjvo, hshift k], by rw [hjc], ?_, ?_, ?_⟩
        · rw [← hshift k]
          exact hbv
        · intro k' v' hk'
          cases k' with
          | zero =>
            obtain rfl := Option.some.inj hk'
            rw [← hshift k]
            simpa using le_of_lt (lt_of_le_of_lt hnle hbv)
          | succ k'' =>
            rw [← hshift k'', ← hshift k]
            exact hle k'' v' hk'
        · intro k' v' hk' hk'k
          cases k' with
          | zero =>
            obtain rfl := Option.some.inj hk'
            rw [← hshift k]
            simpa using lt_of_le_of_lt hnle hbv
          | succ k'' =>
            rw [← hshift k'', ← hshift k]
            exact hstrict k'' v' hk' (Nat.lt_of_succ_lt_succ hk'k)

/-- The selection loop from the initial accumulator (`NEG_INFINITY`, null):
on a nonempty slot list it returns a slot index whose score is maximal,
strictly above every earlier slot, together with the child of that slot. -/
theorem uctLoop_init_spec {μ α : Type} [LinearOrderedField α] (c fpu : α)
    (edges : List (Edge μ α)) (vs : List (Option (Handle × α)))
    (j : Nat) (jvo : Option α) (jc : Handle)
    (hne : vs ≠ [])
    (hloop : uctLoop c fpu edges 0 vs (0, none, Handle.null) = (j, jvo, jc)) :
    ∃ k v, vs.get? k = some v ∧ j = k ∧ jc = entryChild v ∧
      (∀ k' v', vs.get? k' = some v' →
        entryScore c fpu edges k' v' ≤ entryScore c fpu edges k v) ∧
      (∀ k' v', vs.get? k' = some v' → k' < k →
        entryScore c fpu edges k' v' < entryScore c fpu edges k v) := by
  cases vs with
  | nil => exact absurd rfl hne
  | cons v rest =>
    rw [uctLoop, if_pos (by simp [beats])] at hloop
    have hshift : ∀ m : Nat, 0 + 1 + m = m + 1 := fun m => by omega
    have hzero : (0 : Nat) + 0 = 0 := rfl
    rcases uctLoop_spec c fpu edges rest (0 + 1) 0 (entryScore c fpu edges 0 v)
        (entryChild v) j jvo jc hloop with
      ⟨heq, hall⟩ | ⟨k, w, hk, hj, _, hjc, hbv, hle, hstrict⟩
    · have hj : j = 0 := congrArg Prod.fst heq
      have hjc : jc = entryChild v := congrArg (fun t => t.2.2) heq
      refine ⟨0, v, rfl, hj, hjc, ?_, ?_⟩
      · intro k' v' hk'
        cases k' with
        | zero =>
          obtain rfl := Option.some.inj hk'
          exact le_rfl
        | succ k'' =>
          have := hall k'' v' hk'
          rwa [hshift k''] at this
      · intro k' v' _ hk'0
        exact absurd hk'0 (Nat.not_lt_zero k')
    · refine ⟨k + 1, w, hk, by omega, hjc, ?_, ?_⟩
      · intro k' v' hk'
        cases k' with
        | zero =>
          obtain rfl := Option.some.inj hk'
          have := le_of_lt hbv
          rwa [hshift k] at this
        | succ k'' =>
          have := hle k'' v' hk'
          rwa [hshift k'', hshift k] at this
      · intro k' v' hk' hk'k
        cases k' with
        | zero =>
          obtain rfl := Option.some.inj hk'
          have := hbv
          rwa [hshift k] at this
        | succ k'' =>
          have := hstrict k'' v' hk' (Nat.lt_of_succ_lt_succ hk'k)
          rwa [hshift k'', hshift k] at this

/-- C1: for every node with an edge list, `uct_best` returns the edge
maximising the PUCT score with exploration factor
`c = c_puct * sqrt(visits + 1)` — an instantiated child with `k` visits and
winrate `q` scores `q + c*p/(1+k)`, a dangling edge scores `fpu + c*p` with
`fpu = 1 - winrate` for a visited node and `0.5` otherwise — ties broken
toward the lowest edge index (every strictly earlier edge scores strictly
less), and the returned child handle is the instantiated child of the
chosen edge, null exactly when that edge is dangling. -/
theorem uct_best_spec {μ α : Type} [LinearOrderedField α] (sqrt : α → α) (c_puct : α)
    (policyDim : Nat) (tree : Tree μ α) (node_idx : Nat) (node : Node μ α)
    (edges : List (Edge μ α)) (kids : List (Handle × Node μ α)) (j : Nat) (h : Handle)
    (hnode : tree.get? node_idx = some node)
    (hedges : node.edges = some edges)
    (hwalk : siblingWalk tree (tree.length + 1) node.child = some kids)
    (hnodup : (kids.map (fun p => p.2.index)).Nodup)
    (hlen : edges.length ≤ policyDim)
    (hpos : 0 < edges.length)
    (huct : uct_best sqrt c_puct policyDim tree node_idx = some (j, h)) :
    j < edges.length ∧
    (∀ i, i < edges.length →
      puctScore (explorationFactor sqrt c_puct node.visits) (firstPlayUrgency node)
        edges kids i ≤
      puctScore (explorationFactor sqrt c_puct node.visits) (firstPlayUrgency node)
        edges kids j) ∧
    (∀ i, i < j →
      puctScore (explorationFactor sqrt c_puct node.visits) (firstPlayUrgency node)
        edges kids i <
      puctScore (explorationFactor sqrt c_puct node.visits) (firstPlayUrgency node)
        edges kids j) ∧
    h = puctChild kids j ∧
    (h.isNull = true ↔ kids.find? (fun p => p.2.index == j) = none) := by
  rw [uct_best, hnode] at huct
  simp only [] at huct
  rw [hedges] at huct
  simp only [] at huct
  cases hfill : fillValuesGo tree edges (explorationFactor sqrt c_puct node.visits)
      (tree.length + 1) node.child (List.replicate policyDim none) with
  | none =>
    rw [hfill] at huct
    exact Option.noConfusion huct
  | some values =>
    rw [hfill] at huct
    simp only [] at huct
    obtain ⟨hlen', hchar⟩ := fillValuesGo_spec tree edges
      (explorationFactor sqrt c_puct node.visits) (tree.length + 1) node.child
      (List.replicate policyDim none) values kids hfill hwalk hnodup
    have hvlen : values.length = policyDim := by
      rw [hlen', List.length_replicate]
    have hvslen : (values.take edges.length).length = edges.length := by
      rw [List.length_take, hvlen]
      omega
    obtain ⟨⟨j', jvo, jc⟩, hu⟩ :
        ∃ u, uctLoop (explorationFactor sqrt c_puct node.visits) (firstPlayUrgency node)
          edges 0 (values.take edges.length) (0, none, Handle.null) = u := ⟨_, rfl⟩
    rw [hu] at huct
    obtain ⟨rfl, rfl⟩ : j' = j ∧ jc = h := by
      have := Option.some.inj huct
      exact ⟨congrArg Prod.fst this, congrArg Prod.snd this⟩
    have hbridge : ∀ k v, (values.take edges.length).get? k = some v → k < edges.length →
        entryScore (explorationFactor sqrt c_puct node.visits) (firstPlayUrgency node)
          edges k v =
          puctScore (explorationFactor sqrt c_puct node.visits) (firstPlayUrgency node)
            edges kids k ∧
        entryChild v = puctChild kids k ∧
        (v = none ↔ kids.find? (fun p => p.2.index == k) = none) ∧
        (∀ p, kids.find? (fun p => p.2.index == k) = some p →
          v = some (p.1, p.2.winrate +
            explorationFactor sqrt c_puct node.visits * probAt edges k /
              (1 + (p.2.visits : α))) ∧ p.1.isNull = false) := by
      intro k v hkv hklt
      have hkval : values.get? k = some v := by
        rwa [List.get?_take hklt] at hkv
      have hchark := hchar k
      cases hfind : kids.find? (fun p => p.2.index == k) with
      | some p =>
        rw [hfind] at hchark
        obtain ⟨hv, _, hnull⟩ := hchark
        rw [hkval] at hv
        obtain rfl := Option.some.inj hv
        refine ⟨?_, ?_, ?_, ?_⟩
        · simp only [entryScore, puctScore, hfind]
        · simp only [entryChild, puctChild, hfind]
        · exact ⟨fun hh => Option.noConfusion hh, fun hh => Option.noConfusion hh⟩
        · intro q hq
          obtain rfl := Option.some.inj hq
          exact ⟨rfl, hnull⟩
      | none =>
        rw [hfind] at hchark
        have hrep : (List.replicate policyDim (none : Option (Handle × α))).get? k =
            some none := by
          rw [List.get?_eq_get (by rw [List.length_replicate]; omega)]
          simp [List.get_replicate]
        rw [hkval, hrep] at hchark
        obtain rfl := Option.some.inj hchark
        refine ⟨?_, ?_, ⟨fun _ => rfl, fun _ => rfl⟩, ?_⟩
        · simp only [entryScore, puctScore, hfind]
          ring
        · simp only [entryChild, puctChild, hfind]
        · intro q hq
          exact Option.noConfusion hq
    have hne : values.take edges.length ≠ [] := by
      intro hh
      rw [hh] at hvslen
      simp only [List.length_nil] at hvslen
      omega
    obtain ⟨k, v, hkv, hjk, hjc, hle, hstrict⟩ :=
      uctLoop_init_spec (explorationFactor sqrt c_puct node.visits) (firstPlayUrgency node)
        edges (values.take edges.length) j' jvo jc hne hu
    rw [hjk]
    have hklt : k < edges.length := by
      have := (List.get?_eq_some.1 hkv).1
      rwa [hvslen] at this
    obtain ⟨hsk, hck, hiffk, hsomek⟩ := hbridge k v hkv hklt
    refine ⟨hklt, ?_, ?_, ?_, ?_⟩
    · intro i hi
      obtain ⟨vi, hvi⟩ : ∃ vi, (values.take edges.length).get? i = some vi := by
        rw [List.get?_eq_get (by rw [hvslen]; exact hi)]
        exact ⟨_, rfl⟩
      obtain ⟨hsi, _, _, _⟩ := hbridge i vi hvi hi
      rw [← hsi, ← hsk]
      exact hle i vi hvi
    · intro i hij
      have hi : i < edges.length := lt_trans hij hklt
      obtain ⟨vi, hvi⟩ : ∃ vi, (values.take edges.length).get? i = some vi := by
        rw [List.get?_eq_get (by rw [hvslen]; exact hi)]
        exact ⟨_, rfl⟩
      obtain ⟨hsi, _, _, _⟩ := hbridge i vi hvi hi
      rw [← hsi, ← hsk]
      exact hstrict i vi hvi hij
    · rw [hjc, hck]
    · cases hfind : kids.find? (fun p => p.2.index == k) with
      | some p =>
        obtain ⟨hveq, hnull⟩ := hsomek p hfind
        subst hveq
        have hp1 : jc = p.1 := hjc
        rw [hp1, hnull]
        simp
      | none =>
        have hvnone : v = none := hiffk.2 hfind
        subst hvnone
        have hh : jc = Handle.null := hjc
        rw [hh]
        simp [Handle.isNull, Handle.null]

/-- Concrete evaluation of `uct_best` on the witness tree (identity `sqrt`,
`c_puct = 2`): the dangling edge of prior 3 wins, with a null child. -/
theorem uct_best_wit_eval :
    uct_best (fun x => x) 2 2 uctWitTree 0 = some (1, Handle.null) := by
  rw [uct_best]
  norm_num [uctWitTree, uctWitNode, uctWitEdges, fillValuesGo, uctLoop, beats,
    entryScore, entryChild, probAt, explorationFactor, firstPlayUrgency,
    Handle.isNull, Handle.null, handleNullVal]

/-- Witness for C1: instantiating `uct_best_spec` on the concrete one-node
tree discharges all hypotheses. -/
theorem uct_best_spec_witness :
    (1 < uctWitEdges.length ∧
      (∀ i, i < uctWitEdges.length →
        puctScore (explorationFactor (fun x => x) 2 uctWitNode.visits)
          (firstPlayUrgency uctWitNode) uctWitEdges [] i ≤
        puctScore (explorationFactor (fun x => x) 2 uctWitNode.visits)
          (firstPlayUrgency uctWitNode) uctWitEdges [] 1) ∧
      (∀ i, i < 1 →
        puctScore (explorationFactor (fun x => x) 2 uctWitNode.visits)
          (firstPlayUrgency uctWitNode) uctWitEdges [] i <
        puctScore (explorationFactor (fun x => x) 2 uctWitNode.visits)
          (firstPlayUrgency uctWitNode) uctWitEdges [] 1) ∧
      Handle.null = puctChild ([] : List (Handle × Node Nat Rat)) 1 ∧
      (Handle.null.isNull = true ↔
        List.find? (fun p => p.2.index == 1) ([] : List (Handle × Node Nat Rat)) = none)) :=
  uct_best_spec (fun x => x) 2 2 uctWitTree 0 uctWitNode uctWitEdges [] 1 Handle.null
    rfl rfl rfl (by simp) (by decide) (by decide) uct_best_wit_eval

end Veritas
